import Mathlib

/-!
Shallow embedding of the trade-generation core of the `strat_backtest`
repository, together with proofs checking the natural-language
specification against it.

Modelling conventions:
* `Decimal` values are modelled as exact rationals (`ℚ`); the code's
  2-decimal-place rounding (`round(x, 2)` on `Decimal`, which uses
  ROUND_HALF_EVEN) is modelled explicitly by `round2`.
* `datetime` values are modelled as integers (`DT`), ordered; a difference
  of datetimes in whole days is the integer difference.
* A Python function that can raise is modelled in `Except String`; an
  exception caught inside the source function is handled locally, an
  uncaught one becomes `.error`.
* `deque` ledgers become `List StockTrade` with the front at index 0.
-/

/-- Price action literal of `strat_backtest.utils.constants.PriceAction`. -/
inductive PriceAction where
  | buy
  | sell
  | wait
deriving DecidableEq, Repr

/-- Datetimes, modelled as integers (days). -/
abbrev DT := Int

/-- `strat_backtest.base.stock_trade.StockTrade` (stored fields only;
computed fields are derived and not stored).  `exit_lots` has pydantic
default `Decimal("0")` and is never assigned `None` by the code, so it is
modelled as a plain rational. -/
structure StockTrade where
  ticker : String
  entry_datetime : DT
  entry_action : PriceAction
  entry_lots : ℚ
  entry_price : ℚ
  exit_datetime : Option DT := none
  exit_action : Option PriceAction := none
  exit_lots : ℚ := 0
  exit_price : Option ℚ := none
deriving DecidableEq, Repr

/-- `StockTrade.validate_exit_action`: rules relating entry and exit action
(both non-null). -/
def exit_action_ok (entry ex : PriceAction) : Bool :=
  !(entry == PriceAction.wait && ex != PriceAction.wait)
    && !(entry != PriceAction.wait && entry == ex)
    && !(entry != PriceAction.wait && ex == PriceAction.wait)

/-- Pydantic assignment of the four exit fields inside the `try` block of
`ExitStruct._update_pos`, with `validate_assignment = True`: the field
validators of `StockTrade` run on each assignment
(`validate_exit_datetime`, `validate_exit_action`, `validate_exit_lots`,
and the `gt=0` constraint on `exit_price`).  Any `ValidationError` makes
the whole update fail (`none`). -/
def set_exit_fields (t : StockTrade) (dt : DT) (ex_act : PriceAction)
    (lots price : ℚ) : Option StockTrade :=
  if dt < t.entry_datetime then none
  else if !(exit_action_ok t.entry_action ex_act) then none
  else if lots > t.entry_lots ∨ lots < 0 ∨ t.entry_lots < 0 then none
  else if price ≤ 0 then none
  else some { t with
    exit_datetime := some dt
    exit_action := some ex_act
    exit_lots := lots
    exit_price := some price }

/-- `exit_lots or trade.entry_lots` in `ExitStruct._validate_exit_lots`:
`None` and `Decimal("0")` are both falsy in Python. -/
def resolve_exit_lots (t : StockTrade) (lots : Option ℚ) : ℚ :=
  match lots with
  | none => t.entry_lots
  | some x => if x = 0 then t.entry_lots else x

/-- `ExitStruct._update_pos`.  `_validate_exit_lots` raises (uncaught)
outside the `try` block; a `ValidationError` raised by the exit-field
assignments is caught and the original trade is returned. -/
def update_pos (t : StockTrade) (dt : DT) (price : ℚ) (lots : Option ℚ) :
    Except String StockTrade :=
  let l := resolve_exit_lots t lots
  if l > t.entry_lots then
    .error "Exit lots are more than entry lots"
  else if l < 0 then
    .error "Exit lots cannot be negative"
  else
    let ex_act := if t.entry_action = PriceAction.buy then PriceAction.sell
      else PriceAction.buy
    .ok ((set_exit_fields t dt ex_act l price).getD t)

/-- `strat_backtest.utils.pos_utils.validate_completed_trades`: all stored
fields non-null and `entry_lots == exit_lots`.  (The computed fields of
`model_dump` are non-null exactly when the stored exit fields are.) -/
def validate_completed_trades (t : StockTrade) : Bool :=
  t.exit_datetime.isSome && t.exit_action.isSome && t.exit_price.isSome
    && (t.entry_lots == t.exit_lots)

/-- `strat_backtest.utils.pos_utils.gen_completed_trade` (the per-class
`_gen_completed_trade` copies have the same body): overwrite both lot
fields with `lots_to_exit`, then validate.  The assignment
`entry_lots = lots_to_exit` re-runs the `ge=1` constraint and its failure
is not caught. -/
def gen_completed_trade (t : StockTrade) (lots : ℚ) : Except String StockTrade :=
  if lots < 1 then .error "entry_lots must be at least 1"
  else
    let c := { t with entry_lots := lots, exit_lots := lots }
    if validate_completed_trades c then .ok c
    else .error "Completed trades not properly closed."

/-- `strat_backtest.utils.pos_utils.get_net_pos`. -/
def get_net_pos (l : List StockTrade) : ℚ :=
  (l.map (fun t =>
    if t.entry_action = PriceAction.buy then t.entry_lots - t.exit_lots
    else -(t.entry_lots - t.exit_lots))).sum

/-- Open (not yet exited) lots of one trade. -/
def open_lots (t : StockTrade) : ℚ := t.entry_lots - t.exit_lots

/-- Total open lots of a ledger. -/
def total_open_lots (l : List StockTrade) : ℚ := (l.map open_lots).sum

/-- Sum of the `entry_lots` fields of a list of completed-trade records. -/
def sum_entry_lots (l : List StockTrade) : ℚ := (l.map (·.entry_lots)).sum

/-- `strat_backtest.utils.pos_utils.get_std_field` for the
`entry_action` field: error when more than one distinct value is present,
`none` for an empty ledger, otherwise the common value. -/
def std_entry_action (l : List StockTrade) : Except String (Option PriceAction) :=
  match l with
  | [] => .ok none
  | t :: ts =>
      if ts.all (fun s => s.entry_action = t.entry_action) then
        .ok (some t.entry_action)
      else .error "'entry_action' field is not consistent."

/-- `FIFOExit.close_pos`. -/
def fifo_close_pos (l : List StockTrade) (dt : DT) (price : ℚ) :
    Except String (List StockTrade × List StockTrade) :=
  match l with
  | [] => .ok ([], [])
  | t :: rest => do
      let u ← update_pos t dt price none
      if validate_completed_trades u then .ok (rest, [u])
      else .ok (t :: rest, [])

/-- `LIFOExit.close_pos`. -/
def lifo_close_pos (l : List StockTrade) (dt : DT) (price : ℚ) :
    Except String (List StockTrade × List StockTrade) :=
  match l.getLast? with
  | none => .ok ([], [])
  | some t => do
      let u ← update_pos t dt price none
      if validate_completed_trades u then .ok (l.dropLast, [u])
      else .ok (l, [])

/-- Loop body of `TakeAllExit.close_pos`.  Returns `none` for the early
`return open_trades, []` taken when a trade fails to update; otherwise one
optional record per trade (`none` when the defensive validation refused to
emit it, which later trips the completeness check). -/
def take_all_close_aux (dt : DT) (price : ℚ) :
    List StockTrade → Except String (Option (List (Option StockTrade)))
  | [] => .ok (some [])
  | t :: ts => do
      let u ← update_pos t dt price none
      if u.exit_lots = t.exit_lots then .ok none
      else do
        let r : Option StockTrade ←
          if t.exit_lots > 0 then do
            let g ← gen_completed_trade u (u.entry_lots - t.exit_lots)
            pure (some g)
          else
            pure (if validate_completed_trades u then some u else none)
        match ← take_all_close_aux dt price ts with
        | none => .ok none
        | some recs => .ok (some (r :: recs))

/-- `TakeAllExit.close_pos`. -/
def take_all_close_pos (l : List StockTrade) (dt : DT) (price : ℚ) :
    Except String (List StockTrade × List StockTrade) :=
  if l.isEmpty then .ok (l, [])
  else do
    match ← take_all_close_aux dt price l with
    | none => .ok (l, [])
    | some recs =>
        if recs.any Option.isNone then
          .error "Open positions failed to close completely."
        else .ok ([], recs.filterMap id)

/-- `FixedTimeExit.close_pos` without the emptiness guard. -/
def fixed_time_close_aux (tp : Int) (dt : DT) (price : ℚ) :
    List StockTrade → Except String (List StockTrade × List StockTrade)
  | [] => .ok ([], [])
  | t :: ts =>
      if dt - t.entry_datetime ≥ tp then do
        let u ← update_pos t dt price none
        let (rest, recs) ← fixed_time_close_aux tp dt price ts
        if validate_completed_trades u then .ok (rest, u :: recs)
        else .ok (t :: rest, recs)
      else do
        let (rest, recs) ← fixed_time_close_aux tp dt price ts
        .ok (t :: rest, recs)

/-- `FixedTimeExit.close_pos`. -/
def fixed_time_close_pos (tp : Int) (l : List StockTrade) (dt : DT) (price : ℚ) :
    Except String (List StockTrade × List StockTrade) :=
  if l.isEmpty then .ok (l, [])
  else fixed_time_close_aux tp dt price l

/-- `pos_dict.get(_entry_dt)`: the dict comprehension keeps the last trade
for each entry datetime. -/
def find_last_by_dt (l : List StockTrade) (d : DT) : Option StockTrade :=
  (l.filter (fun t => t.entry_datetime = d)).getLast?

/-- `deque.remove`: remove the first element equal to `t`. -/
def remove_first : List StockTrade → StockTrade → List StockTrade
  | [], _ => []
  | x :: xs, t => if x = t then xs else x :: remove_first xs t

/-- `FixedExit.close_pos`. -/
def fixed_exit_close_pos (l : List StockTrade) (dt : DT) (price : ℚ)
    (entry_dt : Option DT) : Except String (List StockTrade × List StockTrade) :=
  if l.isEmpty then .ok (l, [])
  else
    match entry_dt.bind (find_last_by_dt l) with
    | none => .error "No open positions having entry datetime"
    | some d => do
        let u ← update_pos d dt price none
        if validate_completed_trades u then .ok (remove_first l d, [u])
        else .ok (l, [])

/-- `HalfExitStruct._update_completed_trades`, emitting the single record
appended to the accumulator. -/
def update_completed_trades (t : StockTrade) (dt : DT) (price : ℚ) (lots : ℚ) :
    Except String StockTrade := do
  let u ← update_pos t dt price (some lots)
  gen_completed_trade u lots

/-- Loop of `HalfExitStruct._update_half_status` over the ledger, with the
running `half_pos`. -/
def update_half_aux (dt : DT) (price : ℚ) :
    ℚ → List StockTrade → Except String (List StockTrade × List StockTrade)
  | _, [] => .ok ([], [])
  | halfPos, t :: ts =>
      let ol := open_lots t
      let lotsToExit := min ol halfPos
      if halfPos ≤ 0 then do
        let (no, c) ← update_half_aux dt price (halfPos - lotsToExit) ts
        .ok (t :: no, c)
      else if ol ≤ halfPos then do
        let r ← update_completed_trades t dt price lotsToExit
        let (no, c) ← update_half_aux dt price (halfPos - lotsToExit) ts
        .ok (no, r :: c)
      else do
        let r ← update_completed_trades t dt price lotsToExit
        let u ← update_pos t dt price (some (lotsToExit + t.exit_lots))
        let (no, c) ← update_half_aux dt price (halfPos - lotsToExit) ts
        .ok (u :: no, r :: c)

/-- `HalfExitStruct._update_half_status`: `half_pos = math.ceil(abs(net)/2)`. -/
def update_half_status (l : List StockTrade) (dt : DT) (price : ℚ) :
    Except String (List StockTrade × List StockTrade) :=
  update_half_aux dt price ((⌈|get_net_pos l| / 2⌉ : ℤ) : ℚ) l

/-- `HalfFIFOExit.close_pos`. -/
def half_fifo_close_pos (l : List StockTrade) (dt : DT) (price : ℚ) :
    Except String (List StockTrade × List StockTrade) :=
  if l.isEmpty then .ok (l, [])
  else update_half_status l dt price

/-- Loop of `HalfLIFOExit.close_pos` over the reversed ledger, carrying the
`new_open_trades` and `completed_trades` accumulators; `origL` is the
untouched input returned by the early `return open_trades, []`. -/
def half_lifo_aux (dt : DT) (price : ℚ) (origL : List StockTrade) :
    List StockTrade → ℚ → List StockTrade → List StockTrade →
    Except String (List StockTrade × List StockTrade)
  | [], _, no, comp => .ok (no, comp)
  | t :: ts, halfPos, no, comp =>
      if halfPos > 0 then do
        let lots := min halfPos (t.entry_lots - t.exit_lots)
        let u ← update_pos t dt price (some (t.exit_lots + lots))
        if u.exit_lots = t.exit_lots then .ok (origL, [])
        else do
          let no2 := if validate_completed_trades u then no else no ++ [u]
          let r ← gen_completed_trade u lots
          half_lifo_aux dt price origL ts (halfPos - lots) no2 (comp ++ [r])
      else half_lifo_aux dt price origL ts halfPos (t :: no) comp

/-- `HalfLIFOExit.close_pos`. -/
def half_lifo_close_pos (l : List StockTrade) (dt : DT) (price : ℚ) :
    Except String (List StockTrade × List StockTrade) :=
  if l.isEmpty then .ok (l, [])
  else
    half_lifo_aux dt price l l.reverse
      ((⌈|get_net_pos l| / 2⌉ : ℤ) : ℚ) [] []

/-- Rounding of a rational to the nearest integer, ties to even: the
rounding used by Python `Decimal` under the default context. -/
def round_half_even (q : ℚ) : ℤ :=
  let f := ⌊q⌋
  let r := q - f
  if r < 1 / 2 then f
  else if 1 / 2 < r then f + 1
  else if f % 2 = 0 then f else f + 1

/-- `round(x, 2)` on a `Decimal`: quantize to 2 decimal places with
ROUND_HALF_EVEN. -/
def round2 (q : ℚ) : ℚ := ((round_half_even (q * 100) : ℤ) : ℚ) / 100

/-- `sum(trade.entry_price * (trade.entry_lots - trade.exit_lots) ...)` in
`PercentLoss.cal_exit_price`. -/
def cur_invest (l : List StockTrade) : ℚ :=
  (l.map (fun t => t.entry_price * (t.entry_lots - t.exit_lots))).sum

/-- `PercentLoss.cal_exit_price`.  There is no emptiness guard in the
source; on an empty ledger `cur_invest` and `get_net_pos` are both zero and
the `Decimal` division `0 / 0` raises, modelled as the zero-denominator
error branch. -/
def percent_loss_cal_exit_price (pl : ℚ) (l : List StockTrade) :
    Except String ℚ := do
  let a ← std_entry_action l
  let ci := cur_invest l
  let net := get_net_pos l
  if net = 0 then .error "Decimal division by zero"
  else
    .ok (round2 (if a = some PriceAction.buy then ci * (1 - pl) / net
      else ci * (1 + pl) / net))

/-- `LatestLoss.cal_exit_price`. -/
def latest_loss_cal_exit_price (pl : ℚ) (l : List StockTrade) :
    Except String ℚ :=
  match l.getLast? with
  | none => .error "'open_trades' cannot be empty."
  | some last => do
      let a ← std_entry_action l
      .ok (round2 (if a = some PriceAction.buy then last.entry_price * (1 - pl)
        else last.entry_price * (1 + pl)))

/-- `NearestLoss.cal_exit_price`. -/
def nearest_loss_cal_exit_price (pl : ℚ) (l : List StockTrade) :
    Except String ℚ :=
  match l with
  | [] => .error "'open_trades' cannot be empty."
  | t :: ts => do
      let a ← std_entry_action (t :: ts)
      let stop := fun (s : StockTrade) =>
        if a = some PriceAction.buy then s.entry_price * (1 - pl)
        else s.entry_price * (1 + pl)
      .ok (round2 (if a = some PriceAction.buy then
        (ts.map stop).foldl max (stop t)
      else (ts.map stop).foldl min (stop t)))

/-- Configured exit structure (`exit_struct` configuration value). -/
inductive ExitMethod where
  | fifoExit
  | lifoExit
  | halfFifoExit
  | halfLifoExit
  | takeAllExit
  | fixedExit
  | fixedTimeExit
deriving DecidableEq, Repr

/-- Configured stop-loss method (`stop_method` configuration value). -/
inductive StopMethodKind where
  | noStop
  | percentLossStop
  | latestLossStop
  | nearestLossStop
deriving DecidableEq, Repr

/-- Configured entry structure (`entry_struct` configuration value). -/
inductive EntryMethod where
  | multiEntry
  | multiHalfEntry
  | singleEntry
deriving DecidableEq, Repr

/-- One bar of the signal DataFrame (`self.req_cols` plus the `stop`
column used by `FixedExit`).  `op` is the `open` price (`open` is a Lean
keyword). -/
structure BarRecord where
  date : DT
  op : ℚ
  high : ℚ
  low : ℚ
  close : ℚ
  entry_signal : PriceAction
  exit_signal : PriceAction
  stop : ℚ
deriving DecidableEq, Repr

/-- Row appended to `stop_info_list` / `trail_info_list` by
`GenTrades._update_trigger_status`. -/
structure TriggerInfo where
  date : DT
  t_price : ℚ
  triggered : ℚ
deriving DecidableEq, Repr

/-- Mutable state of a `FirstTrail` (`TrailProfit`) instance. -/
structure FirstTrailState where
  trigger_trail : ℚ
  step : Option ℚ
  ref_price : Option ℚ := none
  trigger_trail_level : Option ℚ := none
  trailing_profit : Option ℚ := none
deriving DecidableEq, Repr

/-- `TrailProfit.reset_price_levels`. -/
def reset_price_levels (s : FirstTrailState) : FirstTrailState :=
  { s with
    ref_price := none
    trigger_trail_level := none
    trailing_profit := none }

/-- `TrailProfit._cal_trailing_profit`.  `excess // step * step` uses
`Decimal` floor division, which truncates toward zero; `excess` is
non-negative on both branches, so integer floor is faithful. -/
def cal_trailing_profit (s : FirstTrailState) (high low : ℚ)
    (entry_action : Option PriceAction) :
    Except String (FirstTrailState × Option ℚ) :=
  match s.ref_price, s.trigger_trail_level with
  | none, _ => .error "'self.ref_price' is null value."
  | some _, none => .error "'self.trigger_trail_level' is null value."
  | some ref, some ttl =>
      if entry_action = some PriceAction.buy ∧ 0 ≤ high - ttl then
        let excess := high - ttl
        let computed := match s.step with
          | none => ref + excess
          | some st => ref + ((⌊excess / st⌋ : ℤ) : ℚ) * st
        let s2 := match s.trailing_profit with
          | none => { s with trailing_profit := some (round2 computed) }
          | some tp =>
              if computed > tp then
                { s with trailing_profit := some (round2 computed) }
              else s
        .ok (s2, s2.trailing_profit)
      else if entry_action = some PriceAction.sell ∧ 0 ≤ ttl - low then
        let excess := ttl - low
        let computed := match s.step with
          | none => ref - excess
          | some st => ref - ((⌊excess / st⌋ : ℤ) : ℚ) * st
        let s2 := match s.trailing_profit with
          | none => { s with trailing_profit := some (round2 computed) }
          | some tp =>
              if computed < tp then
                { s with trailing_profit := some (round2 computed) }
              else s
        .ok (s2, s2.trailing_profit)
      else .ok (s, s.trailing_profit)

/-- `FirstTrail.cal_trail_price`: reset and recompute the trigger level
when the first open position's entry price differs from the cached
reference price, then ratchet via `_cal_trailing_profit`.
(`TrailProfit._cal_trigger_trail_level` is inlined for a non-null
reference price; the dead `step_level` attribute write is dropped.) -/
def cal_trail_price (s : FirstTrailState) (l : List StockTrade)
    (high low : ℚ) : Except String (FirstTrailState × Option ℚ) :=
  match l with
  | [] => .error "'open_trades' cannot be empty."
  | t0 :: ts => do
      let a ← std_entry_action (t0 :: ts)
      let first := t0.entry_price
      let s1 :=
        if s.ref_price ≠ some first then
          let sr := { (reset_price_levels s) with ref_price := some first }
          let ttl :=
            if a = some PriceAction.buy then first * (1 + s.trigger_trail)
            else first * (1 - s.trigger_trail)
          { sr with trigger_trail_level := some ttl }
        else s
      cal_trailing_profit s1 high low a

/-- State of a `GenTrades` orchestrator relevant to the per-bar checks:
the ledger, configuration, the cached evaluator/strategy state
(`inst_cache` is modelled by explicit fields: the entry/exit
`OpenEvaluator` record buffers, the cached-instance flags used by the
reset logic of `exit_all`, the cached `FirstTrail` state and the cached
`FixedExit.exit_levels` dictionary), the `flip` flag, and the two
trigger-info lists. -/
structure GTState where
  open_trades : List StockTrade
  entry_struct : EntryMethod
  exit_struct : ExitMethod
  num_lots : ℚ
  monitor_close : Bool
  percent_loss : ℚ
  stop_method : StopMethodKind
  flip : Bool := false
  open_eval_cached : Bool := false
  trail_cached : Bool := false
  ent_records : List BarRecord := []
  ex_records : List BarRecord := []
  trail_state : FirstTrailState := ⟨1/5, none, none, none, none⟩
  fixed_exit_levels : List (DT × ℚ × ℚ) := []
  stop_info_list : List TriggerInfo := []
  trail_info_list : List TriggerInfo := []
deriving DecidableEq, Repr

/-- `GenTrades.exit_all`: close everything through `TakeAllExit`, check
complete closure, then reset the cached trailing-profit levels, the
evaluator record buffers (the ledger is empty at that point) and, when an
`OpenEvaluator` is cached, the `flip` flag. -/
def exit_all (s : GTState) (dt : DT) (price : ℚ) :
    Except String (GTState × List StockTrade) := do
  let (l2, recs) ← take_all_close_pos s.open_trades dt price
  if l2 ≠ [] then .error "Open positions are not closed completely."
  else
    let s1 := { s with open_trades := l2 }
    let s2 := if s1.trail_cached then
        { s1 with trail_state := reset_price_levels s1.trail_state }
      else s1
    let s3 := { s2 with
      ent_records := if s2.open_trades.isEmpty then [] else s2.ent_records
      ex_records := if s2.open_trades.isEmpty then [] else s2.ex_records }
    let s4 := if s3.open_eval_cached then { s3 with flip := false } else s3
    .ok (s4, recs)

/-- Opening-gap trigger condition of `GenTrades._update_trigger_status`. -/
def breach_open (a : Option PriceAction) (bar : BarRecord) (tp : ℚ) : Prop :=
  (a = some PriceAction.buy ∧ bar.op ≤ tp) ∨
    (a = some PriceAction.sell ∧ bar.op ≥ tp)

/-- `any(cond_list)` of `GenTrades._update_trigger_status`. -/
def breach_intraday (monitor_close : Bool) (a : Option PriceAction)
    (bar : BarRecord) (tp : ℚ) : Prop :=
  (monitor_close = true ∧ a = some PriceAction.buy ∧ bar.close ≤ tp) ∨
    (monitor_close = true ∧ a = some PriceAction.sell ∧ bar.close ≥ tp) ∨
    (monitor_close = false ∧ a = some PriceAction.buy ∧ bar.low ≤ tp) ∨
    (monitor_close = false ∧ a = some PriceAction.sell ∧ bar.high ≥ tp)

instance (a : Option PriceAction) (bar : BarRecord) (tp : ℚ) :
    Decidable (breach_open a bar tp) := by
  unfold breach_open; infer_instance

instance (m : Bool) (a : Option PriceAction) (bar : BarRecord) (tp : ℚ) :
    Decidable (breach_intraday m a bar tp) := by
  unfold breach_intraday; infer_instance

/-- `GenTrades._update_trigger_status`: exit everything at the opening
price on an opening gap through the trigger, else at the closing price
(when monitoring close) or the trigger price (when monitoring high/low) if
a condition in `cond_list` holds; record the trigger info row. -/
def update_trigger_status (s : GTState) (completed : List StockTrade)
    (bar : BarRecord) (trigger_price : ℚ) :
    Except String (GTState × List StockTrade × TriggerInfo) := do
  let a ← std_entry_action s.open_trades
  if breach_open a bar trigger_price then do
    let (s2, recs) ← exit_all s bar.date bar.op
    .ok (s2, completed ++ recs, ⟨bar.date, trigger_price, 1⟩)
  else if breach_intraday s.monitor_close a bar trigger_price then do
    let ep := if s.monitor_close then bar.close else trigger_price
    let (s2, recs) ← exit_all s bar.date ep
    .ok (s2, completed ++ recs, ⟨bar.date, trigger_price, 1⟩)
  else .ok (s, completed, ⟨bar.date, trigger_price, 0⟩)

/-- `GenTrades.cal_stop_price`: dispatch on the configured stop method.
(`check_stop_loss` only calls it with a configured method; dynamically
loading the `no_stop` class would fail, modelled as an error.) -/
def cal_stop_price (s : GTState) : Except String ℚ :=
  match s.stop_method with
  | .noStop => .error "no_stop is not a stop method class"
  | .percentLossStop => percent_loss_cal_exit_price s.percent_loss s.open_trades
  | .latestLossStop => latest_loss_cal_exit_price s.percent_loss s.open_trades
  | .nearestLossStop => nearest_loss_cal_exit_price s.percent_loss s.open_trades

/-- Loop of `FixedExit.check_all_stop` over `exit_levels`, threading the
ledger, the completed list and the retained levels. -/
def check_all_stop_aux (monitor_close : Bool) (a : Option PriceAction)
    (bar : BarRecord) :
    List (DT × ℚ × ℚ) → List StockTrade → List StockTrade →
    List (DT × ℚ × ℚ) →
    Except String (List StockTrade × List StockTrade × List (DT × ℚ × ℚ))
  | [], l, comp, upd => .ok (l, comp, upd)
  | (edt, pr, stp) :: rest, l, comp, upd => do
      if pr < stp ∧ a = some PriceAction.buy then
        .error "Target profit is below stop loss for long position."
      else if pr > stp ∧ a = some PriceAction.sell then
        .error "Target profit is above stop loss for short position."
      else if (a = some PriceAction.buy ∧ bar.op ≤ stp) ∨
          (a = some PriceAction.sell ∧ bar.op ≥ stp) then do
        let (l2, recs) ← fixed_exit_close_pos l bar.date bar.op (some edt)
        check_all_stop_aux monitor_close a bar rest l2 (comp ++ recs) upd
      else if (monitor_close = true ∧ a = some PriceAction.buy ∧
            bar.close ≤ stp) ∨
          (monitor_close = true ∧ a = some PriceAction.sell ∧
            bar.close ≥ stp) ∨
          (monitor_close = false ∧ a = some PriceAction.buy ∧
            bar.low ≤ stp) ∨
          (monitor_close = false ∧ a = some PriceAction.sell ∧
            bar.high ≥ stp) then do
        let (l2, recs) ← fixed_exit_close_pos l bar.date stp (some edt)
        check_all_stop_aux monitor_close a bar rest l2 (comp ++ recs) upd
      else
        check_all_stop_aux monitor_close a bar rest l comp
          (upd ++ [(edt, pr, stp)])

/-- `FixedExit.check_all_stop`. -/
def fixed_exit_check_all_stop (s : GTState) (completed : List StockTrade)
    (bar : BarRecord) : Except String (GTState × List StockTrade) := do
  if s.open_trades.isEmpty then
    .ok ({ s with fixed_exit_levels := [] }, completed)
  else do
    let a ← std_entry_action s.open_trades
    let (l2, comp2, upd) ← check_all_stop_aux s.monitor_close a bar
      s.fixed_exit_levels s.open_trades completed []
    .ok ({ s with open_trades := l2, fixed_exit_levels := upd }, comp2)

/-- `GenTrades.check_stop_loss`. -/
def check_stop_loss (s : GTState) (completed : List StockTrade)
    (bar : BarRecord) : Except String (GTState × List StockTrade) := do
  if s.open_trades.isEmpty || s.stop_method == StopMethodKind.noStop then
    .ok (s, completed)
  else if s.exit_struct = ExitMethod.fixedExit then
    fixed_exit_check_all_stop s completed bar
  else do
    let sp ← cal_stop_price s
    let (s2, comp2, info) ← update_trigger_status s completed bar sp
    .ok ({ s2 with stop_info_list := s2.stop_info_list ++ [info] }, comp2)

/-- `SignalEvaluator._get_existing_sig` for the entry signal: unique
non-wait signal buffered in `records`, error when both buy and sell are
present. -/
def get_existing_sig (records : List BarRecord) :
    Except String (Option PriceAction) :=
  if records.isEmpty then .ok none
  else
    let sigs := records.map (·.entry_signal)
    if PriceAction.buy ∈ sigs ∧ PriceAction.sell ∈ sigs then
      .error "Both buy and sell signals are present in 'self.records'."
    else if PriceAction.buy ∈ sigs then .ok (some PriceAction.buy)
    else if PriceAction.sell ∈ sigs then .ok (some PriceAction.sell)
    else .ok none

/-- `SignalEvaluator._validate_sig` for the entry signal. -/
def validate_sig (records : List BarRecord) (sig : PriceAction) :
    Except String Unit := do
  match ← get_existing_sig records with
  | none => .ok ()
  | some e =>
      if sig = PriceAction.wait then .ok ()
      else if sig ≠ e then
        .error "entry_signal is not consistent with that in 'self.records'."
      else .ok ()

/-- Confirmed parameters returned by an evaluator (the dictionary
`{"dt": ..., "entry_signal": ..., "entry_price": ...}` of
`OpenEvaluator.evaluate` with `sig_type = "entry_signal"`). -/
structure EvalParams where
  dt : DT
  sig : Option PriceAction
  price : ℚ
deriving DecidableEq, Repr

/-- `OpenEvaluator.evaluate` for the entry signal: buffer a non-wait
signal; once buffered, confirm at the current bar's open price and reset
or replace the buffer. -/
def open_evaluator_evaluate (records : List BarRecord) (bar : BarRecord) :
    Except String (List BarRecord × Option EvalParams) := do
  let sig := bar.entry_signal
  let _ ← validate_sig records sig
  if records.isEmpty then
    .ok ((if sig ≠ PriceAction.wait then records ++ [bar] else records), none)
  else do
    let ex ← get_existing_sig records
    let newRecords := if sig ≠ PriceAction.wait then [bar] else []
    .ok (newRecords, some ⟨bar.date, ex, bar.op⟩)

/-- `EntryStruct._validate_ticker` (raises `ValueError`, uncaught by the
surrounding `except ValidationError`). -/
def validate_ticker (l : List StockTrade) (ticker : String) :
    Except String String :=
  match l.getLast? with
  | none => .ok ticker
  | some last =>
      if ticker ≠ last.ticker then
        .error "ticker is different from ticker used in 'open_trades'"
      else .ok ticker

/-- `EntryStruct._validate_entry_datetime` (raises `ValueError`,
uncaught). -/
def validate_entry_datetime (l : List StockTrade) (dt : DT) :
    Except String DT :=
  match l.getLast? with
  | none => .ok dt
  | some last =>
      if dt < last.entry_datetime then
        .error "Entry datetime is earlier than latest entry datetime."
      else .ok dt

/-- `EntryStruct._validate_entry_action` (raises `ValueError`, uncaught).
The evaluator can hand over a null signal, which mismatches any existing
entry. -/
def validate_entry_action (l : List StockTrade) (sig : Option PriceAction) :
    Except String (Option PriceAction) :=
  match l.getLast? with
  | none => .ok sig
  | some last =>
      if sig ≠ some last.entry_action then
        .error "entry action is different from entry action in 'open_trades'"
      else .ok sig

/-- `EntryStruct._create_new`: run the three ledger-consistency validators
(whose `ValueError`s propagate), then construct the `StockTrade`; a
pydantic `ValidationError` (null action, `entry_lots < 1`,
`entry_price <= 0`) is caught and yields `None`.
`entry_lots or self.num_lots` treats `None` and `0` as falsy. -/
def create_new (num_lots : ℚ) (l : List StockTrade) (ticker : String)
    (dt : DT) (sig : Option PriceAction) (price : ℚ)
    (entry_lots : Option ℚ) : Except String (Option StockTrade) := do
  let lots := match entry_lots with
    | none => num_lots
    | some x => if x = 0 then num_lots else x
  let tk ← validate_ticker l ticker
  let dt2 ← validate_entry_datetime l dt
  let act ← validate_entry_action l sig
  match act with
  | none => .ok none
  | some a =>
      if lots < 1 ∨ price ≤ 0 then .ok none
      else .ok (some ⟨tk, dt2, a, lots, price, none, none, 0, none⟩)

/-- `EntryStruct._validate_open_trades` (raises `ValueError`, uncaught). -/
def validate_open_trades (l : List StockTrade) : Except String Unit :=
  match l with
  | [] => .error "'open_trades' is still empty after creating new position."
  | t :: ts => do
      if ¬ ts.all (fun s => s.ticker = t.ticker) then
        .error "'ticker' field is not consistent."
      else do
      let _ ← std_entry_action (t :: ts)
      if (t :: ts).Chain' (fun x y =>
          x.entry_datetime ≤ y.entry_datetime) then
        if (t :: ts).any (fun x => x.exit_lots ≥ x.entry_lots) then
          .error "Completed trades observed in 'open_trades'."
        else .ok ()
      else .error "'entry_date' field is not sequential."

/-- `MultiEntry.open_new_pos`. -/
def multi_entry_open_new_pos (num_lots : ℚ) (l : List StockTrade)
    (ticker : String) (dt : DT) (sig : Option PriceAction) (price : ℚ) :
    Except String (List StockTrade) := do
  match ← create_new num_lots l ticker dt sig price none with
  | none => .ok l
  | some t => do
      let _ ← validate_open_trades (l ++ [t])
      .ok (l ++ [t])

/-- `MultiHalfEntry.get_half_lots`. -/
def get_half_lots (num_lots : ℚ) (l : List StockTrade) : ℚ :=
  match l.getLast? with
  | none => num_lots
  | some last => ((⌈(last.entry_lots - last.exit_lots) / 2⌉ : ℤ) : ℚ)

/-- `MultiHalfEntry.open_new_pos`. -/
def multi_half_entry_open_new_pos (num_lots : ℚ) (l : List StockTrade)
    (ticker : String) (dt : DT) (sig : Option PriceAction) (price : ℚ) :
    Except String (List StockTrade) := do
  let lots := get_half_lots num_lots l
  match ← create_new num_lots l ticker dt sig price (some lots) with
  | none => .ok l
  | some t => do
      let _ ← validate_open_trades (l ++ [t])
      .ok (l ++ [t])

/-- `SingleEntry.open_new_pos`. -/
def single_entry_open_new_pos (num_lots : ℚ) (l : List StockTrade)
    (ticker : String) (dt : DT) (sig : Option PriceAction) (price : ℚ) :
    Except String (List StockTrade) := do
  if l.length > 0 then .ok l
  else
    match ← create_new num_lots l ticker dt sig price none with
    | none => .ok l
    | some t => do
        let _ ← validate_open_trades (l ++ [t])
        .ok (l ++ [t])

/-- Dictionary assignment `self.exit_levels[entry_dt] = (...)`: replace in
place or append. -/
def upsert_level : List (DT × ℚ × ℚ) → DT → ℚ × ℚ → List (DT × ℚ × ℚ)
  | [], d, v => [(d, v.1, v.2)]
  | (d0, p0, s0) :: rest, d, v =>
      if d0 = d then (d, v.1, v.2) :: rest
      else (d0, p0, s0) :: upsert_level rest d v

/-- `FixedExit.update_exit_levels` (its own four-argument signature):
validate the stop side, then register the bracket
`(2 * entry_price - stop_level, stop_level)` keyed by entry datetime. -/
def update_exit_levels (levels : List (DT × ℚ × ℚ)) (entry_dt : DT)
    (entry_action : PriceAction) (entry_price stop_level : ℚ) :
    Except String (List (DT × ℚ × ℚ)) :=
  if entry_action = PriceAction.buy ∧ entry_price ≤ stop_level then
    .error "entry price <= stop_level for long position."
  else if entry_action = PriceAction.sell ∧ entry_price ≥ stop_level then
    .error "entry price >= stop_level for short position."
  else
    .ok (upsert_level levels entry_dt (2 * entry_price - stop_level, stop_level))

/-- `GenTrades.check_new_pos` with the entry evaluator being an
`OpenEvaluator` (`sig_type = "entry_signal"`).  Two slips of the source
surface here:
* the evaluator's parameter dictionary uses the keys `entry_signal` and
  `entry_price`, so `open_new_pos(self.open_trades, ticker, **params)`
  raises `TypeError` for `MultiEntry`/`MultiHalfEntry`, whose keyword is
  `ent_sig` (only `SingleEntry` names it `entry_signal`);
* in the `FixedExit` branch, `params["price"]` raises `KeyError` (the key
  is `entry_price`), and the call passes only three of the four required
  arguments of `update_exit_levels`. -/
def check_new_pos (s : GTState) (ticker : String) (bar : BarRecord) :
    Except String GTState := do
  let (rec2, confirmed) ← open_evaluator_evaluate s.ent_records bar
  match confirmed with
  | none => .ok { s with ent_records := rec2 }
  | some p => do
      let newTrades ←
        match s.entry_struct with
        | .singleEntry =>
            single_entry_open_new_pos s.num_lots s.open_trades ticker
              p.dt p.sig p.price
        | _ =>
            .error "TypeError: unexpected keyword argument given to open_new_pos"
      if s.exit_struct = ExitMethod.fixedExit then
        .error "KeyError: 'price'"
      else if newTrades.isEmpty then
        .error "No open positions created!"
      else .ok { s with ent_records := rec2, open_trades := newTrades }

/-- Exit action recorded when closing a trade (`"sell" if entry_action ==
"buy" else "buy"`). -/
def close_exit_action (t : StockTrade) : PriceAction :=
  if t.entry_action = PriceAction.buy then PriceAction.sell else PriceAction.buy

/-- A trade kept in the ledger after closing only part of it at datetime
`dt` and price `price`, with its cumulative `exit_lots` set to `lots`. -/
def partly_closed (t : StockTrade) (dt : DT) (price : ℚ) (lots : ℚ) :
    StockTrade :=
  { t with
    exit_datetime := some dt
    exit_action := some (close_exit_action t)
    exit_lots := lots
    exit_price := some price }

/-- The completed-trade record emitted for closing `lots` lots of trade
`t` at datetime `dt` and price `price`: both lot fields hold `lots`. -/
def completed_record (t : StockTrade) (dt : DT) (price : ℚ) (lots : ℚ) :
    StockTrade :=
  { t with
    entry_lots := lots
    exit_datetime := some dt
    exit_action := some (close_exit_action t)
    exit_lots := lots
    exit_price := some price }

/-- Reference behaviour of a half-reduction walk: remove `req` open lots
from the front of the ledger — fully closing leading trades while they fit,
partially reducing at most one trade — and leave every later trade
unchanged. -/
def drop_lots_front (dt : DT) (price : ℚ) : ℚ → List StockTrade →
    List StockTrade
  | _, [] => []
  | req, t :: ts =>
      if req ≤ 0 then t :: ts
      else if open_lots t ≤ req then
        drop_lots_front dt price (req - open_lots t) ts
      else partly_closed t dt price (t.exit_lots + req) :: ts

/-- Reference behaviour of the records emitted by a half-reduction walk
taking `req` open lots from the front of the ledger. -/
def take_lots_front (dt : DT) (price : ℚ) : ℚ → List StockTrade →
    List StockTrade
  | _, [] => []
  | req, t :: ts =>
      if req ≤ 0 then []
      else if open_lots t ≤ req then
        completed_record t dt price (open_lots t) ::
          take_lots_front dt price (req - open_lots t) ts
      else [completed_record t dt price req]

/-- Well-formedness of one ledger entry for the purposes of the exit
operations: entry side `a`, non-negative cumulative exits, at least one
open lot, entered no later than `dt`, and whole-number lot fields. -/
def wf_trade (a : PriceAction) (dt : DT) (t : StockTrade) : Prop :=
  t.entry_action = a ∧ 0 ≤ t.exit_lots ∧ 1 ≤ open_lots t ∧
    t.entry_datetime ≤ dt ∧ (∃ m : ℤ, t.entry_lots = (m : ℚ)) ∧
    (∃ n : ℤ, t.exit_lots = (n : ℚ))

/-- One call to `FirstTrail.cal_trail_price` described by its arguments:
the ledger and the bar's high and low prices. -/
structure TrailCall where
  ledger : List StockTrade
  high : ℚ
  low : ℚ
deriving Repr

/-- Successive calls to `cal_trail_price` on one `FirstTrail` instance,
threading its state and collecting the returned levels. -/
def run_trail_calls (s : FirstTrailState) : List TrailCall →
    Except String (FirstTrailState × List (Option ℚ))
  | [] => .ok (s, [])
  | c :: cs => do
      let (s2, out) ← cal_trail_price s c.ledger c.high c.low
      let (s3, outs) ← run_trail_calls s2 cs
      .ok (s3, out :: outs)

/-- Invariant of a `FirstTrail` state whose reference price is pinned to
`p`: the trigger level is set and any cached trailing level is a
2-decimal-rounded value. -/
def trail_inv (p : ℚ) (s : FirstTrailState) : Prop :=
  s.ref_price = some p ∧ s.trigger_trail_level.isSome = true ∧
    ∀ v, s.trailing_profit = some v → ∃ u, v = round2 u

/-- `v` bounds every non-`none` element of `outs` from below. -/
def tp_lb (v : ℚ) (outs : List (Option ℚ)) : Prop :=
  ∀ i (hi : i < outs.length) (y : ℚ), outs.get ⟨i, hi⟩ = some y → v ≤ y

/-- `v` bounds every non-`none` element of `outs` from above. -/
def tp_ub (v : ℚ) (outs : List (Option ℚ)) : Prop :=
  ∀ i (hi : i < outs.length) (y : ℚ), outs.get ⟨i, hi⟩ = some y → y ≤ v

/-- The non-`none` elements of `outs` are non-decreasing in position. -/
def mono_some_le (outs : List (Option ℚ)) : Prop :=
  ∀ i j (hi : i < outs.length) (hj : j < outs.length), i ≤ j →
    ∀ x y, outs.get ⟨i, hi⟩ = some x → outs.get ⟨j, hj⟩ = some y → x ≤ y

/-- The non-`none` elements of `outs` are non-increasing in position. -/
def mono_some_ge (outs : List (Option ℚ)) : Prop :=
  ∀ i j (hi : i < outs.length) (hj : j < outs.length), i ≤ j →
    ∀ x y, outs.get ⟨i, hi⟩ = some x → outs.get ⟨j, hj⟩ = some y → y ≤ x

/-- The state produced by the reset branch of `FirstTrail.cal_trail_price`
(reference price changed): reset all levels, pin the reference price and
recompute the trigger trail level. -/
def trail_reset_state (s : FirstTrailState) (first : ℚ)
    (a : Option PriceAction) : FirstTrailState :=
  let sr := { (reset_price_levels s) with ref_price := some first }
  let ttl :=
    if a = some PriceAction.buy then first * (1 + s.trigger_trail)
    else first * (1 - s.trigger_trail)
  { sr with trigger_trail_level := some ttl }

/-- Concrete fixture for exercising `check_stop_loss`: a one-trade long
ledger (1 lot bought at 100). -/
def c3_trade : StockTrade :=
  ⟨"AAPL", 0, PriceAction.buy, 1, 100, none, none, 0, none⟩

/-- Concrete `GenTrades` state with a configured `PercentLoss` stop
(percent_loss = 0.2) holding `c3_trade`, its `exit_struct` set to
`FixedExit` and an empty `exit_levels` cache. -/
def c3_state : GTState :=
  ⟨[c3_trade], EntryMethod.multiEntry, ExitMethod.fixedExit, 1, false, 1/5,
    StopMethodKind.percentLossStop, false, false, false, [], [],
    ⟨1/5, none, none, none, none⟩, [], [], []⟩

/-- A bar gapping down through the percent-loss trigger price 80 at the
open. -/
def c3_bar : BarRecord :=
  ⟨1, 70, 75, 65, 72, PriceAction.wait, PriceAction.wait, 0⟩

/-- `c3_state` with a non-`FixedExit` exit structure, exercising the
trigger-price path of `check_stop_loss`. -/
def c3_state_fifo : GTState :=
  { c3_state with exit_struct := ExitMethod.fifoExit }

/-- Fixture for the half-exit walks: a two-trade long ledger, 2 lots at
100 then 1 lot at 50 (total 3 open lots). -/
def c2_l : List StockTrade :=
  [⟨"AAPL", 0, PriceAction.buy, 2, 100, none, none, 0, none⟩,
    ⟨"AAPL", 0, PriceAction.buy, 1, 50, none, none, 0, none⟩]

/-! ## Theorems -/

theorem except_bind_ok {α β : Type} (x : α) (f : α → Except String β) :
    (Except.ok x >>= f) = f x := rfl

theorem except_bind_error {α β : Type} (e : String)
    (f : α → Except String β) :
    ((Except.error e : Except String α) >>= f) = Except.error e := rfl

theorem except_pure_bind {α β : Type} (x : α) (f : α → Except String β) :
    ((pure x : Except String α) >>= f) = f x := rfl

theorem gen_completed_trade_valid {t r : StockTrade} {lots : ℚ}
    (h : gen_completed_trade t lots = .ok r) :
    validate_completed_trades r = true := by
  unfold gen_completed_trade at h
  split at h
  · exact absurd h (by simp)
  · simp only [] at h
    split at h
    · cases h
      assumption
    · exact absurd h (by simp)

theorem update_completed_trades_valid {t r : StockTrade} {dt : DT}
    {price lots : ℚ}
    (h : update_completed_trades t dt price lots = .ok r) :
    validate_completed_trades r = true := by
  unfold update_completed_trades at h
  cases hu : update_pos t dt price (some lots) with
  | error e => rw [hu, except_bind_error] at h; exact absurd h (by simp)
  | ok u => rw [hu, except_bind_ok] at h; exact gen_completed_trade_valid h

theorem fifo_emits_valid {l l2 recs : List StockTrade} {dt : DT} {price : ℚ}
    (h : fifo_close_pos l dt price = .ok (l2, recs)) :
    ∀ r ∈ recs, validate_completed_trades r = true := by
  intro r hr
  match l with
  | [] =>
      simp only [fifo_close_pos, Except.ok.injEq, Prod.mk.injEq] at h
      rw [← h.2] at hr
      simp at hr
  | t :: rest =>
      simp only [fifo_close_pos] at h
      cases hu : update_pos t dt price none with
      | error e => rw [hu, except_bind_error] at h; exact absurd h (by simp)
      | ok u =>
          rw [hu, except_bind_ok] at h
          split at h
          · simp only [Except.ok.injEq, Prod.mk.injEq] at h
            rw [← h.2] at hr
            simp at hr
            rw [hr]
            assumption
          · simp only [Except.ok.injEq, Prod.mk.injEq] at h
            rw [← h.2] at hr
            simp at hr

theorem lifo_emits_valid {l l2 recs : List StockTrade} {dt : DT} {price : ℚ}
    (h : lifo_close_pos l dt price = .ok (l2, recs)) :
    ∀ r ∈ recs, validate_completed_trades r = true := by
  intro r hr
  unfold lifo_close_pos at h
  cases hlast : l.getLast? with
  | none =>
      rw [hlast] at h
      simp only [Except.ok.injEq, Prod.mk.injEq] at h
      rw [← h.2] at hr
      simp at hr
  | some t =>
      rw [hlast] at h
      simp only [] at h
      cases hu : update_pos t dt price none with
      | error e => rw [hu, except_bind_error] at h; exact absurd h (by simp)
      | ok u =>
          rw [hu, except_bind_ok] at h
          split at h
          · simp only [Except.ok.injEq, Prod.mk.injEq] at h
            rw [← h.2] at hr
            simp at hr
            rw [hr]
            assumption
          · simp only [Except.ok.injEq, Prod.mk.injEq] at h
            rw [← h.2] at hr
            simp at hr

theorem update_half_aux_emits_valid {dt : DT} {price : ℚ} :
    ∀ (l : List StockTrade) (hp : ℚ) {no c : List StockTrade},
      update_half_aux dt price hp l = .ok (no, c) →
      ∀ r ∈ c, validate_completed_trades r = true := by
  intro l
  induction l with
  | nil =>
      intro hp no c h r hr
      simp only [update_half_aux, Except.ok.injEq, Prod.mk.injEq] at h
      rw [← h.2] at hr
      simp at hr
  | cons t ts ih =>
      intro hp no c h r hr
      simp only [update_half_aux] at h
      split at h
      · cases hrec : update_half_aux dt price
            (hp - min (open_lots t) hp) ts with
        | error e => rw [hrec, except_bind_error] at h; exact absurd h (by simp)
        | ok p =>
            rw [hrec, except_bind_ok] at h
            simp only [Except.ok.injEq, Prod.mk.injEq] at h
            rw [← h.2] at hr
            exact ih _ hrec r hr
      · split at h
        · cases hu : update_completed_trades t dt price
              (min (open_lots t) hp) with
          | error e => rw [hu, except_bind_error] at h; exact absurd h (by simp)
          | ok r0 =>
              rw [hu, except_bind_ok] at h
              cases hrec : update_half_aux dt price
                  (hp - min (open_lots t) hp) ts with
              | error e =>
                  rw [hrec, except_bind_error] at h; exact absurd h (by simp)
              | ok p =>
                  rw [hrec, except_bind_ok] at h
                  simp only [Except.ok.injEq, Prod.mk.injEq] at h
                  rw [← h.2] at hr
                  rcases List.mem_cons.mp hr with h1 | h2
                  · rw [h1]; exact update_completed_trades_valid hu
                  · exact ih _ hrec r h2
        · cases hu : update_completed_trades t dt price
              (min (open_lots t) hp) with
          | error e => rw [hu, except_bind_error] at h; exact absurd h (by simp)
          | ok r0 =>
              rw [hu, except_bind_ok] at h
              cases hv : update_pos t dt price
                  (some (min (open_lots t) hp + t.exit_lots)) with
              | error e =>
                  rw [hv, except_bind_error] at h; exact absurd h (by simp)
              | ok u =>
                  rw [hv, except_bind_ok] at h
                  cases hrec : update_half_aux dt price
                      (hp - min (open_lots t) hp) ts with
                  | error e =>
                      rw [hrec, except_bind_error] at h
                      exact absurd h (by simp)
                  | ok p =>
                      rw [hrec, except_bind_ok] at h
                      simp only [Except.ok.injEq, Prod.mk.injEq] at h
                      rw [← h.2] at hr
                      rcases List.mem_cons.mp hr with h1 | h2
                      · rw [h1]; exact update_completed_trades_valid hu
                      · exact ih _ hrec r h2

theorem half_fifo_emits_valid {l l2 recs : List StockTrade} {dt : DT}
    {price : ℚ} (h : half_fifo_close_pos l dt price = .ok (l2, recs)) :
    ∀ r ∈ recs, validate_completed_trades r = true := by
  unfold half_fifo_close_pos at h
  split at h
  · simp only [Except.ok.injEq, Prod.mk.injEq] at h
    intro r hr
    rw [← h.2] at hr
    simp at hr
  · exact update_half_aux_emits_valid l _ h

theorem half_lifo_aux_emits_valid {dt : DT} {price : ℚ}
    {origL : List StockTrade} :
    ∀ (rl : List StockTrade) (hp : ℚ) (no comp : List StockTrade)
      {no2 c2 : List StockTrade},
      (∀ r ∈ comp, validate_completed_trades r = true) →
      half_lifo_aux dt price origL rl hp no comp = .ok (no2, c2) →
      ∀ r ∈ c2, validate_completed_trades r = true := by
  intro rl
  induction rl with
  | nil =>
      intro hp no comp no2 c2 hcomp h r hr
      simp only [half_lifo_aux, Except.ok.injEq, Prod.mk.injEq] at h
      rw [← h.2] at hr
      exact hcomp r hr
  | cons t ts ih =>
      intro hp no comp no2 c2 hcomp h r hr
      simp only [half_lifo_aux] at h
      split at h
      · cases hu : update_pos t dt price
            (some (t.exit_lots + min hp (t.entry_lots - t.exit_lots))) with
        | error e => rw [hu, except_bind_error] at h; exact absurd h (by simp)
        | ok u =>
            rw [hu, except_bind_ok] at h
            split at h
            · simp only [Except.ok.injEq, Prod.mk.injEq] at h
              rw [← h.2] at hr
              simp at hr
            · cases hg : gen_completed_trade u
                  (min hp (t.entry_lots - t.exit_lots)) with
              | error e =>
                  rw [hg, except_bind_error] at h; exact absurd h (by simp)
              | ok g =>
                  rw [hg, except_bind_ok] at h
                  refine ih _ _ _ ?_ h r hr
                  intro x hx
                  rcases List.mem_append.mp hx with h1 | h2
                  · exact hcomp x h1
                  · rw [List.mem_singleton.mp h2]
                    exact gen_completed_trade_valid hg
      · exact ih _ _ _ hcomp h r hr

theorem half_lifo_emits_valid {l l2 recs : List StockTrade} {dt : DT}
    {price : ℚ} (h : half_lifo_close_pos l dt price = .ok (l2, recs)) :
    ∀ r ∈ recs, validate_completed_trades r = true := by
  unfold half_lifo_close_pos at h
  split at h
  · simp only [Except.ok.injEq, Prod.mk.injEq] at h
    intro r hr
    rw [← h.2] at hr
    simp at hr
  · exact half_lifo_aux_emits_valid _ _ _ _ (by simp) h

theorem take_all_aux_emits_valid {dt : DT} {price : ℚ} :
    ∀ (l : List StockTrade) {orecs : List (Option StockTrade)},
      take_all_close_aux dt price l = .ok (some orecs) →
      ∀ r : StockTrade, some r ∈ orecs →
        validate_completed_trades r = true := by
  intro l
  induction l with
  | nil =>
      intro orecs h r hr
      simp only [take_all_close_aux, Except.ok.injEq, Option.some.injEq] at h
      rw [← h] at hr
      simp at hr
  | cons t ts ih =>
      intro orecs h r hr
      simp only [take_all_close_aux] at h
      cases hu : update_pos t dt price none with
      | error e => rw [hu, except_bind_error] at h; exact absurd h (by simp)
      | ok u =>
          rw [hu, except_bind_ok] at h
          split at h
          · exact absurd h (by simp)
          · split at h
            · cases hg : gen_completed_trade u (u.entry_lots - t.exit_lots) with
              | error e =>
                  rw [hg] at h
                  simp only [except_bind_error] at h
                  exact absurd h (by simp)
              | ok g =>
                  rw [hg] at h
                  simp only [except_bind_ok, except_pure_bind] at h
                  cases hrec : take_all_close_aux dt price ts with
                  | error e =>
                      rw [hrec, except_bind_error] at h; exact absurd h (by simp)
                  | ok orest =>
                      rw [hrec, except_bind_ok] at h
                      cases orest with
                      | none => exact absurd h (by simp)
                      | some rest =>
                          simp only [Except.ok.injEq, Option.some.injEq] at h
                          rw [← h] at hr
                          rcases List.mem_cons.mp hr with h1 | h2
                          · rw [Option.some.injEq] at h1
                            rw [h1]
                            exact gen_completed_trade_valid hg
                          · exact ih hrec r h2
            · simp only [except_pure_bind] at h
              cases hrec : take_all_close_aux dt price ts with
              | error e =>
                  rw [hrec, except_bind_error] at h; exact absurd h (by simp)
              | ok orest =>
                  rw [hrec, except_bind_ok] at h
                  cases orest with
                  | none => exact absurd h (by simp)
                  | some rest =>
                      simp only [Except.ok.injEq, Option.some.injEq] at h
                      rw [← h] at hr
                      rcases List.mem_cons.mp hr with h1 | h2
                      · split at h1
                        · rw [Option.some.injEq] at h1
                          rw [h1]
                          assumption
                        · exact absurd h1 (by simp)
                      · exact ih hrec r h2

theorem take_all_emits_valid {l l2 recs : List StockTrade} {dt : DT}
    {price : ℚ} (h : take_all_close_pos l dt price = .ok (l2, recs)) :
    ∀ r ∈ recs, validate_completed_trades r = true := by
  intro r hr
  unfold take_all_close_pos at h
  split at h
  · simp only [Except.ok.injEq, Prod.mk.injEq] at h
    rw [← h.2] at hr
    simp at hr
  · cases haux : take_all_close_aux dt price l with
    | error e => rw [haux, except_bind_error] at h; exact absurd h (by simp)
    | ok o =>
        rw [haux, except_bind_ok] at h
        cases o with
        | none =>
            simp only [Except.ok.injEq, Prod.mk.injEq] at h
            rw [← h.2] at hr
            simp at hr
        | some orecs =>
            simp only [] at h
            split at h
            · exact absurd h (by simp)
            · simp only [Except.ok.injEq, Prod.mk.injEq] at h
              rw [← h.2] at hr
              obtain ⟨o, ho, hoid⟩ := List.mem_filterMap.mp hr
              rw [show (id o = some r) = (o = some r) from rfl] at hoid
              rw [hoid] at ho
              exact take_all_aux_emits_valid l haux r ho

theorem fixed_time_aux_emits_valid {tp : Int} {dt : DT} {price : ℚ} :
    ∀ (l : List StockTrade) {l2 recs : List StockTrade},
      fixed_time_close_aux tp dt price l = .ok (l2, recs) →
      ∀ r ∈ recs, validate_completed_trades r = true := by
  intro l
  induction l with
  | nil =>
      intro l2 recs h r hr
      simp only [fixed_time_close_aux, Except.ok.injEq, Prod.mk.injEq] at h
      rw [← h.2] at hr
      simp at hr
  | cons t ts ih =>
      intro l2 recs h r hr
      simp only [fixed_time_close_aux] at h
      split at h
      · cases hu : update_pos t dt price none with
        | error e => rw [hu, except_bind_error] at h; exact absurd h (by simp)
        | ok u =>
            rw [hu, except_bind_ok] at h
            cases hrec : fixed_time_close_aux tp dt price ts with
            | error e =>
                rw [hrec, except_bind_error] at h; exact absurd h (by simp)
            | ok p =>
                rw [hrec, except_bind_ok] at h
                split at h
                · simp only [Except.ok.injEq, Prod.mk.injEq] at h
                  rw [← h.2] at hr
                  rcases List.mem_cons.mp hr with h1 | h2
                  · rw [h1]; assumption
                  · exact ih hrec r h2
                · simp only [Except.ok.injEq, Prod.mk.injEq] at h
                  rw [← h.2] at hr
                  exact ih hrec r hr
      · cases hrec : fixed_time_close_aux tp dt price ts with
        | error e => rw [hrec, except_bind_error] at h; exact absurd h (by simp)
        | ok p =>
            rw [hrec, except_bind_ok] at h
            simp only [Except.ok.injEq, Prod.mk.injEq] at h
            rw [← h.2] at hr
            exact ih hrec r hr

theorem fixed_time_emits_valid {tp : Int} {l l2 recs : List StockTrade}
    {dt : DT} {price : ℚ}
    (h : fixed_time_close_pos tp l dt price = .ok (l2, recs)) :
    ∀ r ∈ recs, validate_completed_trades r = true := by
  unfold fixed_time_close_pos at h
  split at h
  · simp only [Except.ok.injEq, Prod.mk.injEq] at h
    intro r hr
    rw [← h.2] at hr
    simp at hr
  · exact fixed_time_aux_emits_valid l h

theorem fixed_exit_emits_valid {l l2 recs : List StockTrade} {dt : DT}
    {price : ℚ} {edt : Option DT}
    (h : fixed_exit_close_pos l dt price edt = .ok (l2, recs)) :
    ∀ r ∈ recs, validate_completed_trades r = true := by
  intro r hr
  unfold fixed_exit_close_pos at h
  split at h
  · simp only [Except.ok.injEq, Prod.mk.injEq] at h
    rw [← h.2] at hr
    simp at hr
  · split at h
    · exact absurd h (by simp)
    · rename_i d hd
      cases hu : update_pos d dt price none with
      | error e => rw [hu, except_bind_error] at h; exact absurd h (by simp)
      | ok u =>
          rw [hu, except_bind_ok] at h
          split at h
          · simp only [Except.ok.injEq, Prod.mk.injEq] at h
            rw [← h.2] at hr
            simp at hr
            rw [hr]
            assumption
          · simp only [Except.ok.injEq, Prod.mk.injEq] at h
            rw [← h.2] at hr
            simp at hr

/-- C1: every completed-trade record emitted by any of the seven exit
operations (FIFOExit, LIFOExit, HalfFIFOExit, HalfLIFOExit, TakeAllExit,
FixedExit, FixedTimeExit), on any ledger state on which the operation
returns, satisfies the completed-trade validation: entry_lots equals
exit_lots and no field is null. -/
theorem claim_C1_completed_records_valid :
    (∀ (l l2 recs : List StockTrade) (dt : DT) (price : ℚ),
      fifo_close_pos l dt price = .ok (l2, recs) →
      ∀ r ∈ recs, validate_completed_trades r = true) ∧
    (∀ (l l2 recs : List StockTrade) (dt : DT) (price : ℚ),
      lifo_close_pos l dt price = .ok (l2, recs) →
      ∀ r ∈ recs, validate_completed_trades r = true) ∧
    (∀ (l l2 recs : List StockTrade) (dt : DT) (price : ℚ),
      half_fifo_close_pos l dt price = .ok (l2, recs) →
      ∀ r ∈ recs, validate_completed_trades r = true) ∧
    (∀ (l l2 recs : List StockTrade) (dt : DT) (price : ℚ),
      half_lifo_close_pos l dt price = .ok (l2, recs) →
      ∀ r ∈ recs, validate_completed_trades r = true) ∧
    (∀ (l l2 recs : List StockTrade) (dt : DT) (price : ℚ),
      take_all_close_pos l dt price = .ok (l2, recs) →
      ∀ r ∈ recs, validate_completed_trades r = true) ∧
    (∀ (l l2 recs : List StockTrade) (dt : DT) (price : ℚ)
      (edt : Option DT),
      fixed_exit_close_pos l dt price edt = .ok (l2, recs) →
      ∀ r ∈ recs, validate_completed_trades r = true) ∧
    (∀ (tp : Int) (l l2 recs : List StockTrade) (dt : DT) (price : ℚ),
      fixed_time_close_pos tp l dt price = .ok (l2, recs) →
      ∀ r ∈ recs, validate_completed_trades r = true) := by
  refine ⟨?_, ?_, ?_, ?_, ?_, ?_, ?_⟩
  · intro l l2 recs dt price h
    exact fifo_emits_valid h
  · intro l l2 recs dt price h
    exact lifo_emits_valid h
  · intro l l2 recs dt price h
    exact half_fifo_emits_valid h
  · intro l l2 recs dt price h
    exact half_lifo_emits_valid h
  · intro l l2 recs dt price h
    exact take_all_emits_valid h
  · intro l l2 recs dt price edt h
    exact fixed_exit_emits_valid h
  · intro tp l l2 recs dt price h
    exact fixed_time_emits_valid h

/-- Witness for C1: a concrete FIFO close of one 10-lot long trade emits a
record that passes the completed-trade validation. -/
theorem claim_C1_completed_records_valid_witness :
    validate_completed_trades
      ⟨"AAPL", 0, PriceAction.buy, 10, 100, some 1, some PriceAction.sell,
        10, some 120⟩ = true :=
  claim_C1_completed_records_valid.1
    [⟨"AAPL", 0, PriceAction.buy, 10, 100, none, none, 0, none⟩] []
    [⟨"AAPL", 0, PriceAction.buy, 10, 100, some 1, some PriceAction.sell,
      10, some 120⟩] 1 120 (by rfl) _ (List.mem_singleton.mpr rfl)

/-- C4: each stop-loss calculator errors on an empty ledger instead of
returning a price.  `LatestLoss` and `NearestLoss` raise their explicit
empty-ledger `ValueError`; `PercentLoss` has no explicit guard and raises
through the `Decimal` division `0 / 0`. -/
theorem claim_C4_empty_ledger_raises :
    ∀ pl : ℚ,
      percent_loss_cal_exit_price pl [] = .error "Decimal division by zero" ∧
      latest_loss_cal_exit_price pl [] =
        .error "'open_trades' cannot be empty." ∧
      nearest_loss_cal_exit_price pl [] =
        .error "'open_trades' cannot be empty." := by
  intro pl
  exact ⟨rfl, rfl, rfl⟩

/-- C5: the claim fails on the code for short ledgers.  `PercentLoss`
divides by the signed net position (`get_net_pos`), which is negative for
an all-sell ledger, so for the ledger [sell 1 lot at 100] with
`percent_loss = 0.2` the computed stop price is -120.00 — not strictly
above the lot-weighted average entry price 100 as the claim requires
(the intended value, per the spec formula and the repository's own test
helper, is `100 * (1 + 0.2) = 120`). -/
theorem claim_C5_percent_loss_short_failing_input :
    percent_loss_cal_exit_price (1/5)
        [⟨"AAPL", 0, PriceAction.sell, 1, 100, none, none, 0, none⟩] =
      .ok (-120) ∧
    cur_invest [⟨"AAPL", 0, PriceAction.sell, 1, 100, none, none, 0, none⟩] /
        total_open_lots
          [⟨"AAPL", 0, PriceAction.sell, 1, 100, none, none, 0, none⟩] =
      100 ∧
    ¬((-120 : ℚ) > 100) := by
  refine ⟨?_, ?_, by norm_num⟩
  · show (do
      let a ← std_entry_action
        [⟨"AAPL", 0, PriceAction.sell, 1, 100, none, none, 0, none⟩]
      let ci := cur_invest
        [⟨"AAPL", 0, PriceAction.sell, 1, 100, none, none, 0, none⟩]
      let net := get_net_pos
        [⟨"AAPL", 0, PriceAction.sell, 1, 100, none, none, 0, none⟩]
      if net = 0 then Except.error "Decimal division by zero"
      else
        Except.ok (round2 (if a = some PriceAction.buy then
          ci * (1 - (1/5 : ℚ)) / net else ci * (1 + (1/5 : ℚ)) / net))) =
      Except.ok (-120 : ℚ)
    rw [show std_entry_action
        [⟨"AAPL", 0, PriceAction.sell, 1, 100, none, none, 0, none⟩] =
        Except.ok (some PriceAction.sell) from rfl, except_bind_ok]
    simp only [cur_invest, get_net_pos, round2, round_half_even]
    simp
    norm_num [Int.fract]
  · norm_num [cur_invest, total_open_lots, open_lots]

theorem set_exit_fields_eq {t v : StockTrade} {dt : DT}
    {a : PriceAction} {lots price : ℚ}
    (h : set_exit_fields t dt a lots price = some v) :
    v = { t with
      exit_datetime := some dt
      exit_action := some a
      exit_lots := lots
      exit_price := some price } := by
  unfold set_exit_fields at h
  split at h
  · exact absurd h (by simp)
  · split at h
    · exact absurd h (by simp)
    · split at h
      · exact absurd h (by simp)
      · split at h
        · exact absurd h (by simp)
        · exact (Option.some.injEq _ _ ▸ h).symm

theorem update_pos_entry_lots {t u : StockTrade} {dt : DT} {price : ℚ}
    {lots : Option ℚ} (h : update_pos t dt price lots = .ok u) :
    u.entry_lots = t.entry_lots := by
  simp only [update_pos] at h
  split at h
  · exact absurd h (by simp)
  · split at h
    · exact absurd h (by simp)
    · simp only [Except.ok.injEq] at h
      rw [← h]
      cases hs : set_exit_fields t dt
          (if t.entry_action = PriceAction.buy then PriceAction.sell
            else PriceAction.buy) (resolve_exit_lots t lots) price with
      | none => rfl
      | some v =>
          rw [Option.getD_some, set_exit_fields_eq hs]

theorem gen_completed_trade_lots {t r : StockTrade} {lots : ℚ}
    (h : gen_completed_trade t lots = .ok r) :
    r.entry_lots = lots ∧ r.exit_lots = lots := by
  unfold gen_completed_trade at h
  split at h
  · exact absurd h (by simp)
  · simp only [] at h
    split at h
    · cases h
      exact ⟨rfl, rfl⟩
    · exact absurd h (by simp)

theorem take_all_aux_overwrites {dt : DT} {price : ℚ} :
    ∀ (l : List StockTrade) {orecs : List (Option StockTrade)},
      take_all_close_aux dt price l = .ok (some orecs) →
      ∀ t ∈ l, t.exit_lots > 0 →
        ∃ o ∈ orecs, ∃ r, o = some r ∧
          r.entry_lots = t.entry_lots - t.exit_lots := by
  intro l
  induction l with
  | nil =>
      intro orecs h t ht
      simp at ht
  | cons t0 ts ih =>
      intro orecs h t ht hpos
      simp only [take_all_close_aux] at h
      cases hu : update_pos t0 dt price none with
      | error e => rw [hu, except_bind_error] at h; exact absurd h (by simp)
      | ok u =>
          rw [hu, except_bind_ok] at h
          split at h
          · exact absurd h (by simp)
          · split at h
            · cases hg : gen_completed_trade u (u.entry_lots - t0.exit_lots) with
              | error e =>
                  rw [hg] at h
                  simp only [except_bind_error] at h
                  exact absurd h (by simp)
              | ok g =>
                  rw [hg] at h
                  simp only [except_bind_ok, except_pure_bind] at h
                  cases hrec : take_all_close_aux dt price ts with
                  | error e =>
                      rw [hrec, except_bind_error] at h; exact absurd h (by simp)
                  | ok orest =>
                      rw [hrec, except_bind_ok] at h
                      cases orest with
                      | none => exact absurd h (by simp)
                      | some rest =>
                          simp only [Except.ok.injEq, Option.some.injEq] at h
                          rcases List.mem_cons.mp ht with h1 | h2
                          · refine ⟨some g, ?_, g, rfl, ?_⟩
                            · rw [← h]; exact List.mem_cons_self _ _
                            · rw [h1]
                              rw [(gen_completed_trade_lots hg).1,
                                update_pos_entry_lots hu]
                          · obtain ⟨o, ho, r, hor, hrl⟩ := ih hrec t h2 hpos
                            exact ⟨o, by rw [← h]; exact
                              List.mem_cons_of_mem _ ho, r, hor, hrl⟩
            · simp only [except_pure_bind] at h
              cases hrec : take_all_close_aux dt price ts with
              | error e =>
                  rw [hrec, except_bind_error] at h; exact absurd h (by simp)
              | ok orest =>
                  rw [hrec, except_bind_ok] at h
                  cases orest with
                  | none => exact absurd h (by simp)
                  | some rest =>
                      simp only [Except.ok.injEq, Option.some.injEq] at h
                      rcases List.mem_cons.mp ht with h1 | h2
                      · rename_i hinit
                        rw [h1] at hpos
                        exact absurd hpos hinit
                      · obtain ⟨o, ho, r, hor, hrl⟩ := ih hrec t h2 hpos
                        exact ⟨o, by rw [← h]; exact
                          List.mem_cons_of_mem _ ho, r, hor, hrl⟩

/-- C10: when an exit event covers only part of a trade's original size,
the emitted record's `entry_lots` and `exit_lots` are both overwritten to
the lots closed in that event, hence differ from the trade's original
`entry_lots`:
* `gen_completed_trade` always sets both lot fields to `lots_to_exit`;
* a half-exit record for `lots_to_exit` lots of a trade carries
  `entry_lots = lots_to_exit`, which differs from the trade's
  `entry_lots` whenever the event is partial;
* `TakeAllExit.close_pos` on a trade with positive prior `exit_lots`
  emits a record with `entry_lots = entry_lots - exit_lots ≠ entry_lots`. -/
theorem claim_C10_partial_close_overwrites_lots :
    (∀ (t r : StockTrade) (lots : ℚ),
      gen_completed_trade t lots = .ok r →
      r.entry_lots = lots ∧ r.exit_lots = lots) ∧
    (∀ (t r : StockTrade) (dt : DT) (price lots : ℚ),
      update_completed_trades t dt price lots = .ok r →
      r.entry_lots = lots ∧ r.exit_lots = lots ∧
        (lots ≠ t.entry_lots → r.entry_lots ≠ t.entry_lots)) ∧
    (∀ (l recs : List StockTrade) (dt : DT) (price : ℚ),
      take_all_close_pos l dt price = .ok ([], recs) →
      ∀ t ∈ l, t.exit_lots > 0 →
        ∃ r ∈ recs, r.entry_lots = t.entry_lots - t.exit_lots ∧
          r.entry_lots ≠ t.entry_lots) := by
  refine ⟨?_, ?_, ?_⟩
  · intro t r lots h
    exact gen_completed_trade_lots h
  · intro t r dt price lots h
    unfold update_completed_trades at h
    cases hu : update_pos t dt price (some lots) with
    | error e => rw [hu, except_bind_error] at h; exact absurd h (by simp)
    | ok u =>
        rw [hu, except_bind_ok] at h
        obtain ⟨h1, h2⟩ := gen_completed_trade_lots h
        exact ⟨h1, h2, fun hne => by rw [h1]; exact hne⟩
  · intro l recs dt price h t ht hpos
    unfold take_all_close_pos at h
    split at h
    · rename_i hemp
      rw [List.isEmpty_iff.mp hemp] at ht
      simp at ht
    · cases haux : take_all_close_aux dt price l with
      | error e => rw [haux, except_bind_error] at h; exact absurd h (by simp)
      | ok o =>
          rw [haux, except_bind_ok] at h
          cases o with
          | none =>
              simp only [Except.ok.injEq, Prod.mk.injEq] at h
              rw [h.1] at ht
              simp at ht
          | some orecs =>
              simp only [] at h
              split at h
              · exact absurd h (by simp)
              · simp only [Except.ok.injEq, Prod.mk.injEq] at h
                obtain ⟨o2, ho2, r, hor, hrl⟩ :=
                  take_all_aux_overwrites l haux t ht hpos
                refine ⟨r, ?_, hrl, ?_⟩
                · rw [← h.2]
                  refine List.mem_filterMap.mpr ⟨o2, ho2, ?_⟩
                  rw [hor]; rfl
                · rw [hrl]
                  intro hc
                  have : t.exit_lots = 0 := by linarith [sub_eq_self.mp hc]
                  rw [this] at hpos
                  exact absurd hpos (by norm_num)

/-- Witness for C10: `TakeAllExit` closing a 10-lot trade with 4 lots
already exited emits a record whose lot fields are overwritten to 6. -/
theorem claim_C10_partial_close_overwrites_lots_witness :
    ∃ r ∈ [(⟨"AAPL", 0, PriceAction.buy, 6, 100, some 2,
        some PriceAction.sell, 6, some 120⟩ : StockTrade)],
      r.entry_lots = (10 : ℚ) - 4 ∧ r.entry_lots ≠ 10 :=
  claim_C10_partial_close_overwrites_lots.2.2
    [⟨"AAPL", 0, PriceAction.buy, 10, 100, some 1, some PriceAction.sell,
      4, some 50⟩]
    [⟨"AAPL", 0, PriceAction.buy, 6, 100, some 2, some PriceAction.sell,
      6, some 120⟩]
    2 120
    (by
      simp only [take_all_close_pos, take_all_close_aux, update_pos,
        resolve_exit_lots, set_exit_fields, exit_action_ok,
        gen_completed_trade, validate_completed_trades]
      simp [except_bind_ok, except_bind_error, except_pure_bind]
      all_goals norm_num [except_bind_ok, except_bind_error,
        except_pure_bind, StockTrade.mk.injEq]
      all_goals simp [except_bind_ok, except_bind_error, except_pure_bind])
    ⟨"AAPL", 0, PriceAction.buy, 10, 100, some 1, some PriceAction.sell,
      4, some 50⟩
    (List.mem_singleton.mpr rfl) (by norm_num)

theorem create_new_fails {l : List StockTrade} {tk : String} {dt : DT}
    {sig : Option PriceAction} {price : ℚ} (nl : ℚ) (elots : Option ℚ)
    (h1 : ∀ last, l.getLast? = some last →
      tk = last.ticker ∧ last.entry_datetime ≤ dt ∧
        sig = some last.entry_action)
    (hp : price ≤ 0) :
    create_new nl l tk dt sig price elots = .ok none := by
  unfold create_new validate_ticker validate_entry_datetime
    validate_entry_action
  cases hlast : l.getLast? with
  | none =>
      cases sig with
      | none => simp [except_bind_ok]
      | some a => simp [except_bind_ok, hp]
  | some last =>
      obtain ⟨ht, hd, hs⟩ := h1 last hlast
      have hd2 : ¬ dt < last.entry_datetime := not_lt.mpr hd
      simp [except_bind_ok, ht, hd2, hs, hp]

/-- C9 counterexample: opening a position whose side is inconsistent with
the existing ledger is NOT a caught no-op.  `_validate_entry_action`
raises a plain `ValueError`, which the `except ValidationError` clause of
`_create_new` does not catch, so `MultiEntry.open_new_pos` propagates the
exception instead of returning the ledger unchanged. -/
theorem claim_C9_inconsistent_side_raises :
    multi_entry_open_new_pos 1
        [⟨"AAPL", 0, PriceAction.buy, 10, 100, none, none, 0, none⟩]
        "AAPL" 1 (some PriceAction.sell) 100 =
      .error "entry action is different from entry action in 'open_trades'" :=
  rfl

/-- C9 (amended): failures of the pydantic `StockTrade` construction
itself — here a non-positive entry price (non-positive or fractional lots
behave the same) — are caught and degrade to a no-op for all three entry
strategies, provided the ledger-consistency validators (matching ticker
and side, chronological datetime) pass; inconsistency with the existing
ledger instead raises. -/
theorem claim_C9_construction_failure_no_op
    (num_lots : ℚ) (l : List StockTrade) (tk : String) (dt : DT)
    (sig : Option PriceAction) (price : ℚ)
    (h1 : ∀ last, l.getLast? = some last →
      tk = last.ticker ∧ last.entry_datetime ≤ dt ∧
        sig = some last.entry_action)
    (hp : price ≤ 0) :
    multi_entry_open_new_pos num_lots l tk dt sig price = .ok l ∧
    multi_half_entry_open_new_pos num_lots l tk dt sig price = .ok l ∧
    single_entry_open_new_pos num_lots l tk dt sig price = .ok l := by
  refine ⟨?_, ?_, ?_⟩
  · unfold multi_entry_open_new_pos
    rw [create_new_fails num_lots none h1 hp, except_bind_ok]
  · simp only [multi_half_entry_open_new_pos]
    rw [create_new_fails num_lots (some (get_half_lots num_lots l)) h1 hp,
      except_bind_ok]
  · unfold single_entry_open_new_pos
    split
    · rfl
    · rw [create_new_fails num_lots none h1 hp, except_bind_ok]

/-- Witness for the amended C9: a zero entry price on a consistent
one-trade ledger is a no-op for all three entry strategies. -/
theorem claim_C9_construction_failure_no_op_witness :
    multi_entry_open_new_pos 2
        [⟨"AAPL", 0, PriceAction.buy, 10, 100, none, none, 0, none⟩]
        "AAPL" 1 (some PriceAction.buy) 0 =
      .ok [⟨"AAPL", 0, PriceAction.buy, 10, 100, none, none, 0, none⟩] ∧
    multi_half_entry_open_new_pos 2
        [⟨"AAPL", 0, PriceAction.buy, 10, 100, none, none, 0, none⟩]
        "AAPL" 1 (some PriceAction.buy) 0 =
      .ok [⟨"AAPL", 0, PriceAction.buy, 10, 100, none, none, 0, none⟩] ∧
    single_entry_open_new_pos 2
        [⟨"AAPL", 0, PriceAction.buy, 10, 100, none, none, 0, none⟩]
        "AAPL" 1 (some PriceAction.buy) 0 =
      .ok [⟨"AAPL", 0, PriceAction.buy, 10, 100, none, none, 0, none⟩] :=
  claim_C9_construction_failure_no_op 2
    [⟨"AAPL", 0, PriceAction.buy, 10, 100, none, none, 0, none⟩]
    "AAPL" 1 (some PriceAction.buy) 0
    (by intro last hlast; simp at hlast; simp [← hlast]) (by norm_num)

/-- C8 counterexample: `check_new_pos` on a bar whose `entry_signal` is
`wait` CAN mutate the ledger.  With an `OpenEvaluator` holding a buffered
buy bar, the wait bar confirms the pending entry at the current bar's open
price (that is the evaluator's one-bar-delay design), and `SingleEntry`
appends a new trade to the empty ledger. -/
theorem claim_C8_wait_bar_mutates_ledger :
    check_new_pos
        { open_trades := []
          entry_struct := EntryMethod.singleEntry
          exit_struct := ExitMethod.fifoExit
          num_lots := 1
          monitor_close := true
          percent_loss := 1/20
          stop_method := StopMethodKind.noStop
          ent_records := [⟨0, 100, 110, 90, 105, PriceAction.buy,
            PriceAction.wait, 0⟩] }
        "AAPL" ⟨1, 102, 112, 95, 108, PriceAction.wait, PriceAction.wait, 0⟩ =
      .ok
        { open_trades := [⟨"AAPL", 1, PriceAction.buy, 1, 102, none, none,
            0, none⟩]
          entry_struct := EntryMethod.singleEntry
          exit_struct := ExitMethod.fifoExit
          num_lots := 1
          monitor_close := true
          percent_loss := 1/20
          stop_method := StopMethodKind.noStop } ∧
    ([] : List StockTrade) ≠
      [⟨"AAPL", 1, PriceAction.buy, 1, 102, none, none, 0, none⟩] := by
  refine ⟨?_, by simp⟩
  unfold check_new_pos open_evaluator_evaluate validate_sig
    get_existing_sig single_entry_open_new_pos create_new validate_ticker
    validate_entry_datetime validate_entry_action validate_open_trades
    std_entry_action
  simp [except_bind_ok, except_pure_bind]
  all_goals norm_num [except_bind_ok, except_pure_bind]

/-- C8 (amended): when the entry evaluator holds no buffered pending
signal (its `records` list is empty), `check_new_pos` on a bar with
`entry_signal = wait` leaves the whole state — in particular the ledger —
unchanged. -/
theorem claim_C8_wait_bar_empty_buffer_no_op (s : GTState) (tk : String)
    (bar : BarRecord) (hw : bar.entry_signal = PriceAction.wait)
    (hr : s.ent_records = []) :
    check_new_pos s tk bar = .ok s := by
  obtain ⟨ot, es, xs, nl, mc, pl, sm, fl, oec, tc, er, xr, tst, fel, sil,
    til⟩ := s
  simp only at hr
  subst hr
  unfold check_new_pos open_evaluator_evaluate validate_sig get_existing_sig
  simp [hw, except_bind_ok]

/-- Witness for the amended C8: a concrete wait bar with an empty
evaluator buffer leaves a one-trade ledger state untouched. -/
theorem claim_C8_wait_bar_empty_buffer_no_op_witness :
    check_new_pos
        { open_trades := [⟨"AAPL", 0, PriceAction.buy, 10, 100, none, none,
            0, none⟩]
          entry_struct := EntryMethod.multiEntry
          exit_struct := ExitMethod.fifoExit
          num_lots := 1
          monitor_close := true
          percent_loss := 1/20
          stop_method := StopMethodKind.noStop }
        "AAPL" ⟨1, 102, 112, 95, 108, PriceAction.wait, PriceAction.wait, 0⟩ =
      .ok
        { open_trades := [⟨"AAPL", 0, PriceAction.buy, 10, 100, none, none,
            0, none⟩]
          entry_struct := EntryMethod.multiEntry
          exit_struct := ExitMethod.fifoExit
          num_lots := 1
          monitor_close := true
          percent_loss := 1/20
          stop_method := StopMethodKind.noStop } :=
  claim_C8_wait_bar_empty_buffer_no_op _ "AAPL"
    ⟨1, 102, 112, 95, 108, PriceAction.wait, PriceAction.wait, 0⟩ rfl rfl

/-- C7: `FixedExit.update_exit_levels` itself registers the bracket
`(2 * entry_price - stop_level, stop_level)` keyed by the entry timestamp
— here `(2*100 - 90, 90) = (110, 90)` — but `check_new_pos` never reaches
it when an entry is confirmed with `exit_struct = "FixedExit"`: the source
reads `params["price"]` although the evaluator's key is `entry_price`
(`KeyError`), and even then it passes `update_exit_levels` only three of
its four required arguments (`entry_action` is omitted, `TypeError`).  So
the run aborts instead of registering the bracket. -/
theorem claim_C7_fixed_exit_bracket_registration :
    update_exit_levels [] 5 PriceAction.buy 100 90 = .ok [(5, 110, 90)] ∧
    check_new_pos
        { open_trades := []
          entry_struct := EntryMethod.singleEntry
          exit_struct := ExitMethod.fixedExit
          num_lots := 1
          monitor_close := true
          percent_loss := 1/20
          stop_method := StopMethodKind.noStop
          ent_records := [⟨0, 100, 110, 90, 105, PriceAction.buy,
            PriceAction.wait, 90⟩] }
        "AAPL" ⟨1, 102, 112, 95, 108, PriceAction.wait, PriceAction.wait,
          90⟩ =
      .error "KeyError: 'price'" := by
  constructor
  · unfold update_exit_levels upsert_level
    simp
    all_goals norm_num
  · unfold check_new_pos open_evaluator_evaluate validate_sig
      get_existing_sig single_entry_open_new_pos create_new validate_ticker
      validate_entry_datetime validate_entry_action validate_open_trades
      std_entry_action
    simp [except_bind_ok, except_pure_bind]
    all_goals norm_num [except_bind_ok, except_pure_bind]

theorem rhe_ge_floor (q : ℚ) : ⌊q⌋ ≤ round_half_even q := by
  simp only [round_half_even]
  split
  · exact le_refl _
  · split
    · exact Int.le.intro 1 rfl
    · split
      · exact le_refl _
      · exact Int.le.intro 1 rfl

theorem rhe_le_floor_add_one (q : ℚ) : round_half_even q ≤ ⌊q⌋ + 1 := by
  simp only [round_half_even]
  split
  · exact Int.le.intro 1 rfl
  · split
    · exact le_refl _
    · split
      · exact Int.le.intro 1 rfl
      · exact le_refl _

theorem round2_ge_of_gt {u c : ℚ} (h : round2 u < c) :
    round2 u ≤ round2 c := by
  unfold round2 at *
  have h100 : ((round_half_even (u * 100) : ℤ) : ℚ) < c * 100 := by
    have := (div_lt_iff₀ (by norm_num : (0:ℚ) < 100)).mp h
    linarith
  have hfl : round_half_even (u * 100) ≤ ⌊c * 100⌋ :=
    Int.le_floor.mpr (le_of_lt h100)
  have hge : ⌊c * 100⌋ ≤ round_half_even (c * 100) := rhe_ge_floor _
  have : round_half_even (u * 100) ≤ round_half_even (c * 100) :=
    le_trans hfl hge
  have hc : ((round_half_even (u * 100) : ℤ) : ℚ) ≤
      ((round_half_even (c * 100) : ℤ) : ℚ) := by exact_mod_cast this
  exact div_le_div_of_nonneg_right hc (by norm_num) |>.trans_eq rfl

theorem round2_le_of_lt {u c : ℚ} (h : c < round2 u) :
    round2 c ≤ round2 u := by
  unfold round2 at *
  have h100 : c * 100 < ((round_half_even (u * 100) : ℤ) : ℚ) := by
    have := (lt_div_iff₀ (by norm_num : (0:ℚ) < 100)).mp h
    linarith
  have hfl : ⌊c * 100⌋ < round_half_even (u * 100) :=
    Int.floor_lt.mpr h100
  have hle : round_half_even (c * 100) ≤ ⌊c * 100⌋ + 1 :=
    rhe_le_floor_add_one _
  have : round_half_even (c * 100) ≤ round_half_even (u * 100) :=
    le_trans hle hfl
  have hc : ((round_half_even (c * 100) : ℤ) : ℚ) ≤
      ((round_half_even (u * 100) : ℤ) : ℚ) := by exact_mod_cast this
  exact div_le_div_of_nonneg_right hc (by norm_num)

theorem std_entry_action_buy {t0 : StockTrade} {ts : List StockTrade}
    (hbuy : ∀ t ∈ t0 :: ts, t.entry_action = PriceAction.buy) :
    std_entry_action (t0 :: ts) = .ok (some PriceAction.buy) := by
  have hall : (ts.all (fun s => s.entry_action = t0.entry_action)) = true := by
    refine List.all_eq_true.mpr (fun x hx => ?_)
    simp [hbuy x (List.mem_cons_of_mem _ hx),
      hbuy t0 (List.mem_cons_self _ _)]
  unfold std_entry_action
  simp only []
  rw [if_pos hall, hbuy t0 (List.mem_cons_self _ _)]

theorem cal_trailing_profit_long (s : FirstTrailState) (p high low : ℚ)
    (href : s.ref_price = some p) (httl : s.trigger_trail_level.isSome = true)
    (himg : ∀ v, s.trailing_profit = some v → ∃ u, v = round2 u) :
    ∃ s2 out,
      cal_trailing_profit s high low (some PriceAction.buy) = .ok (s2, out) ∧
      s2.ref_price = some p ∧ s2.trigger_trail_level.isSome = true ∧
      (∀ v, s2.trailing_profit = some v → ∃ u, v = round2 u) ∧
      out = s2.trailing_profit ∧
      (∀ v, s.trailing_profit = some v →
        ∃ w, s2.trailing_profit = some w ∧ v ≤ w) := by
  obtain ⟨L, hL⟩ := Option.isSome_iff_exists.mp httl
  unfold cal_trailing_profit
  rw [href, hL]
  simp only []
  split
  · rename_i hc
    cases htp : s.trailing_profit with
    | none =>
        simp only []
        refine ⟨_, _, rfl, by simp [href], by simp [hL], ?_, by simp, ?_⟩
        · intro v hv
          simp only [Option.some.injEq] at hv
          exact ⟨_, hv.symm⟩
        · intro v hv
          simp at hv
    | some tp0 =>
        simp only []
        obtain ⟨u0, hu0⟩ := himg tp0 htp
        split
        · rename_i hgt
          refine ⟨_, _, rfl, by simp [href], by simp [hL], ?_, by simp, ?_⟩
          · intro v hv
            simp only [Option.some.injEq] at hv
            exact ⟨_, hv.symm⟩
          · intro v hv
            simp only [Option.some.injEq] at hv
            subst hv
            refine ⟨_, rfl, ?_⟩
            rw [hu0] at hgt ⊢
            exact round2_ge_of_gt hgt
        · refine ⟨s, s.trailing_profit, rfl, href, by simp [hL], himg,
            rfl, ?_⟩
          intro v hv
          simp only [Option.some.injEq] at hv
          exact ⟨v, by rw [htp, hv], le_refl v⟩
  · split
    · rename_i hsell
      exact absurd hsell.1 (by simp)
    · refine ⟨s, s.trailing_profit, rfl, href, by simp [hL], himg, rfl, ?_⟩
      intro v hv
      exact ⟨v, hv, le_refl v⟩

theorem cal_trail_price_cons (s : FirstTrailState) (t0 : StockTrade)
    (ts : List StockTrade) (high low : ℚ) :
    cal_trail_price s (t0 :: ts) high low =
      (do
        let a ← std_entry_action (t0 :: ts)
        cal_trailing_profit
          (if s.ref_price ≠ some t0.entry_price then
            trail_reset_state s t0.entry_price a else s) high low a) := rfl

theorem cal_trail_step_long (s : FirstTrailState) (p high low : ℚ)
    (t0 : StockTrade) (ts : List StockTrade)
    (hp : t0.entry_price = p)
    (hbuy : ∀ t ∈ t0 :: ts, t.entry_action = PriceAction.buy)
    (hinv : trail_inv p s) :
    ∃ s2 out, cal_trail_price s (t0 :: ts) high low = .ok (s2, out) ∧
      trail_inv p s2 ∧ out = s2.trailing_profit ∧
      (∀ v, s.trailing_profit = some v →
        ∃ w, s2.trailing_profit = some w ∧ v ≤ w) := by
  obtain ⟨href, httl, himg⟩ := hinv
  rw [cal_trail_price_cons, std_entry_action_buy hbuy, except_bind_ok]
  rw [if_neg (by rw [href, hp]; exact fun hcon => hcon rfl)]
  obtain ⟨s2, out, hcal, h1, h2, h3, h4, h5⟩ :=
    cal_trailing_profit_long s p high low href httl himg
  exact ⟨s2, out, hcal, ⟨h1, h2, h3⟩, h4, h5⟩

theorem cal_trail_reset_long (s : FirstTrailState) (p high low : ℚ)
    (t0 : StockTrade) (ts : List StockTrade)
    (hp : t0.entry_price = p)
    (hbuy : ∀ t ∈ t0 :: ts, t.entry_action = PriceAction.buy)
    (href : s.ref_price ≠ some p) :
    ∃ s2 out, cal_trail_price s (t0 :: ts) high low = .ok (s2, out) ∧
      trail_inv p s2 ∧ out = s2.trailing_profit := by
  rw [cal_trail_price_cons, std_entry_action_buy hbuy, except_bind_ok]
  rw [if_pos (by rw [hp]; exact href)]
  obtain ⟨s2, out, hcal, h1, h2, h3, h4, h5⟩ :=
    cal_trailing_profit_long
      (trail_reset_state s t0.entry_price (some PriceAction.buy)) p high low
      (by simp [trail_reset_state, reset_price_levels, hp])
      (by simp [trail_reset_state, reset_price_levels])
      (by simp [trail_reset_state, reset_price_levels])
  exact ⟨s2, out, hcal, ⟨h1, h2, h3⟩, h4⟩

theorem run_trail_long (p : ℚ) :
    ∀ (cs : List TrailCall) (s : FirstTrailState),
      trail_inv p s →
      (∀ c ∈ cs, ∃ t0 ts, c.ledger = t0 :: ts ∧ t0.entry_price = p ∧
        ∀ t ∈ c.ledger, t.entry_action = PriceAction.buy) →
      ∃ sF outs, run_trail_calls s cs = .ok (sF, outs) ∧
        mono_some_le outs ∧
        (∀ v, s.trailing_profit = some v → tp_lb v outs) := by
  intro cs
  induction cs with
  | nil =>
      intro s hinv hc
      refine ⟨s, [], rfl, ?_, ?_⟩
      · intro i j hi
        simp at hi
      · intro v hv i hi
        simp at hi
  | cons c cs ih =>
      intro s hinv hc
      obtain ⟨t0, ts, hled, hp, hbuy⟩ := hc c (List.mem_cons_self _ _)
      obtain ⟨s2, out, hcal, hinv2, hout, hmono⟩ :=
        cal_trail_step_long s p c.high c.low t0 ts hp
          (by rw [← hled]; exact hbuy) hinv
      rw [← hled] at hcal
      obtain ⟨sF, outs2, hrun, hmono2, hlb2⟩ :=
        ih s2 hinv2 (fun c2 hc2 => hc c2 (List.mem_cons_of_mem _ hc2))
      refine ⟨sF, out :: outs2, ?_, ?_, ?_⟩
      · simp only [run_trail_calls]
        rw [hcal, except_bind_ok]
        simp only []
        rw [hrun, except_bind_ok]
      · intro i j hi hj hij x y hx hy
        match i, j with
        | 0, 0 =>
            simp only [List.get] at hx hy
            rw [hx] at hy
            exact le_of_eq (Option.some.injEq _ _ ▸ hy)
        | 0, (j' + 1) =>
            simp only [List.get] at hx hy
            rw [hout] at hx
            have := hlb2 x hx j' (by exact Nat.lt_of_succ_lt_succ hj) y hy
            exact this
        | (i' + 1), (j' + 1) =>
            simp only [List.get] at hx hy
            exact hmono2 i' j' (Nat.lt_of_succ_lt_succ hi)
              (Nat.lt_of_succ_lt_succ hj) (Nat.le_of_succ_le_succ hij) x y
              hx hy
      · intro v hv i hi y hy
        obtain ⟨w, hw, hvw⟩ := hmono v hv
        match i with
        | 0 =>
            simp only [List.get] at hy
            rw [hout, hw] at hy
            exact le_trans hvw (le_of_eq (Option.some.injEq _ _ ▸ hy))
        | (i' + 1) =>
            simp only [List.get] at hy
            exact le_trans hvw
              (hlb2 w hw i' (Nat.lt_of_succ_lt_succ hi) y hy)

theorem std_entry_action_sell {t0 : StockTrade} {ts : List StockTrade}
    (hsell : ∀ t ∈ t0 :: ts, t.entry_action = PriceAction.sell) :
    std_entry_action (t0 :: ts) = .ok (some PriceAction.sell) := by
  have hall : (ts.all (fun s => s.entry_action = t0.entry_action)) = true := by
    refine List.all_eq_true.mpr (fun x hx => ?_)
    simp [hsell x (List.mem_cons_of_mem _ hx),
      hsell t0 (List.mem_cons_self _ _)]
  unfold std_entry_action
  simp only []
  rw [if_pos hall, hsell t0 (List.mem_cons_self _ _)]

theorem cal_trailing_profit_sell (s : FirstTrailState) (p high low : ℚ)
    (href : s.ref_price = some p) (httl : s.trigger_trail_level.isSome = true)
    (himg : ∀ v, s.trailing_profit = some v → ∃ u, v = round2 u) :
    ∃ s2 out,
      cal_trailing_profit s high low (some PriceAction.sell) = .ok (s2, out) ∧
      s2.ref_price = some p ∧ s2.trigger_trail_level.isSome = true ∧
      (∀ v, s2.trailing_profit = some v → ∃ u, v = round2 u) ∧
      out = s2.trailing_profit ∧
      (∀ v, s.trailing_profit = some v →
        ∃ w, s2.trailing_profit = some w ∧ w ≤ v) := by
  obtain ⟨L, hL⟩ := Option.isSome_iff_exists.mp httl
  unfold cal_trailing_profit
  rw [href, hL]
  simp only []
  split
  · rename_i hc
    exact absurd hc.1 (by simp)
  · split
    · rename_i hc
      cases htp : s.trailing_profit with
      | none =>
          simp only []
          refine ⟨_, _, rfl, by simp [href], by simp [hL], ?_, by simp, ?_⟩
          · intro v hv
            simp only [Option.some.injEq] at hv
            exact ⟨_, hv.symm⟩
          · intro v hv
            simp at hv
      | some tp0 =>
          simp only []
          obtain ⟨u0, hu0⟩ := himg tp0 htp
          split
          · rename_i hlt
            refine ⟨_, _, rfl, by simp [href], by simp [hL], ?_, by simp,
              ?_⟩
            · intro v hv
              simp only [Option.some.injEq] at hv
              exact ⟨_, hv.symm⟩
            · intro v hv
              simp only [Option.some.injEq] at hv
              subst hv
              refine ⟨_, rfl, ?_⟩
              rw [hu0] at hlt ⊢
              exact round2_le_of_lt hlt
          · refine ⟨s, s.trailing_profit, rfl, href, by simp [hL], himg,
              rfl, ?_⟩
            intro v hv
            simp only [Option.some.injEq] at hv
            exact ⟨v, by rw [htp, hv], le_refl v⟩
    · refine ⟨s, s.trailing_profit, rfl, href, by simp [hL], himg, rfl, ?_⟩
      intro v hv
      exact ⟨v, hv, le_refl v⟩

theorem cal_trail_step_sell (s : FirstTrailState) (p high low : ℚ)
    (t0 : StockTrade) (ts : List StockTrade)
    (hp : t0.entry_price = p)
    (hsell : ∀ t ∈ t0 :: ts, t.entry_action = PriceAction.sell)
    (hinv : trail_inv p s) :
    ∃ s2 out, cal_trail_price s (t0 :: ts) high low = .ok (s2, out) ∧
      trail_inv p s2 ∧ out = s2.trailing_profit ∧
      (∀ v, s.trailing_profit = some v →
        ∃ w, s2.trailing_profit = some w ∧ w ≤ v) := by
  obtain ⟨href, httl, himg⟩ := hinv
  rw [cal_trail_price_cons, std_entry_action_sell hsell, except_bind_ok]
  rw [if_neg (by rw [href, hp]; exact fun hcon => hcon rfl)]
  obtain ⟨s2, out, hcal, h1, h2, h3, h4, h5⟩ :=
    cal_trailing_profit_sell s p high low href httl himg
  exact ⟨s2, out, hcal, ⟨h1, h2, h3⟩, h4, h5⟩

theorem cal_trail_reset_sell (s : FirstTrailState) (p high low : ℚ)
    (t0 : StockTrade) (ts : List StockTrade)
    (hp : t0.entry_price = p)
    (hsell : ∀ t ∈ t0 :: ts, t.entry_action = PriceAction.sell)
    (href : s.ref_price ≠ some p) :
    ∃ s2 out, cal_trail_price s (t0 :: ts) high low = .ok (s2, out) ∧
      trail_inv p s2 ∧ out = s2.trailing_profit := by
  rw [cal_trail_price_cons, std_entry_action_sell hsell, except_bind_ok]
  rw [if_pos (by rw [hp]; exact href)]
  obtain ⟨s2, out, hcal, h1, h2, h3, h4, h5⟩ :=
    cal_trailing_profit_sell
      (trail_reset_state s t0.entry_price (some PriceAction.sell)) p high low
      (by simp [trail_reset_state, reset_price_levels, hp])
      (by simp [trail_reset_state, reset_price_levels])
      (by simp [trail_reset_state, reset_price_levels])
  exact ⟨s2, out, hcal, ⟨h1, h2, h3⟩, h4⟩

theorem run_trail_sell (p : ℚ) :
    ∀ (cs : List TrailCall) (s : FirstTrailState),
      trail_inv p s →
      (∀ c ∈ cs, ∃ t0 ts, c.ledger = t0 :: ts ∧ t0.entry_price = p ∧
        ∀ t ∈ c.ledger, t.entry_action = PriceAction.sell) →
      ∃ sF outs, run_trail_calls s cs = .ok (sF, outs) ∧
        mono_some_ge outs ∧
        (∀ v, s.trailing_profit = some v → tp_ub v outs) := by
  intro cs
  induction cs with
  | nil =>
      intro s hinv hc
      refine ⟨s, [], rfl, ?_, ?_⟩
      · intro i j hi
        simp at hi
      · intro v hv i hi
        simp at hi
  | cons c cs ih =>
      intro s hinv hc
      obtain ⟨t0, ts, hled, hp, hsell⟩ := hc c (List.mem_cons_self _ _)
      obtain ⟨s2, out, hcal, hinv2, hout, hmono⟩ :=
        cal_trail_step_sell s p c.high c.low t0 ts hp
          (by rw [← hled]; exact hsell) hinv
      rw [← hled] at hcal
      obtain ⟨sF, outs2, hrun, hmono2, hub2⟩ :=
        ih s2 hinv2 (fun c2 hc2 => hc c2 (List.mem_cons_of_mem _ hc2))
      refine ⟨sF, out :: outs2, ?_, ?_, ?_⟩
      · simp only [run_trail_calls]
        rw [hcal, except_bind_ok]
        simp only []
        rw [hrun, except_bind_ok]
      · intro i j hi hj hij x y hx hy
        match i, j with
        | 0, 0 =>
            simp only [List.get] at hx hy
            rw [hx] at hy
            exact le_of_eq (Option.some.injEq _ _ ▸ hy).symm
        | 0, (j' + 1) =>
            simp only [List.get] at hx hy
            rw [hout] at hx
            exact hub2 x hx j' (Nat.lt_of_succ_lt_succ hj) y hy
        | (i' + 1), (j' + 1) =>
            simp only [List.get] at hx hy
            exact hmono2 i' j' (Nat.lt_of_succ_lt_succ hi)
              (Nat.lt_of_succ_lt_succ hj) (Nat.le_of_succ_le_succ hij) x y
              hx hy
      · intro v hv i hi y hy
        obtain ⟨w, hw, hvw⟩ := hmono v hv
        match i with
        | 0 =>
            simp only [List.get] at hy
            rw [hout, hw] at hy
            exact le_trans (le_of_eq (Option.some.injEq _ _ ▸ hy).symm) hvw
        | (i' + 1) =>
            simp only [List.get] at hy
            exact le_trans
              (hub2 w hw i' (Nat.lt_of_succ_lt_succ hi) y hy) hvw

/-- C6 counterexample: across successive calls on one `FirstTrail`
instance the returned level CAN regress — when the first open position's
entry price changes, `cal_trail_price` resets all levels and recomputes
from the new reference price.  Two long calls (first ledger entered at
100, high 150; second ledger entered at 50, high 70) return levels 130
then 60. -/
theorem claim_C6_trail_level_regresses_on_reset :
    run_trail_calls ⟨1/5, none, none, none, none⟩
        [⟨[⟨"AAPL", 0, PriceAction.buy, 1, 100, none, none, 0, none⟩],
            150, 140⟩,
          ⟨[⟨"AAPL", 0, PriceAction.buy, 1, 50, none, none, 0, none⟩],
            70, 60⟩] =
      .ok (⟨1/5, none, some 50, some 60, some 60⟩,
        [some 130, some 60]) ∧
    (60 : ℚ) < 130 := by
  have hcal1 : cal_trail_price ⟨1/5, none, none, none, none⟩
      [⟨"AAPL", 0, PriceAction.buy, 1, 100, none, none, 0, none⟩] 150 140 =
      .ok (⟨1/5, none, some 100, some 120, some 130⟩, some 130) := by
    simp only [cal_trail_price, cal_trailing_profit, reset_price_levels,
      std_entry_action]
    simp [except_bind_ok, except_pure_bind]
    all_goals norm_num [round2, round_half_even, Int.fract]
  have hcal2 : cal_trail_price ⟨1/5, none, some 100, some 120, some 130⟩
      [⟨"AAPL", 0, PriceAction.buy, 1, 50, none, none, 0, none⟩] 70 60 =
      .ok (⟨1/5, none, some 50, some 60, some 60⟩, some 60) := by
    simp only [cal_trail_price, cal_trailing_profit, reset_price_levels,
      std_entry_action]
    simp [except_bind_ok, except_pure_bind]
    all_goals norm_num [round2, round_half_even, Int.fract]
  refine ⟨?_, by norm_num⟩
  simp only [run_trail_calls]
  rw [hcal1, except_bind_ok]
  simp only []
  rw [hcal2, except_bind_ok]
  simp only []
  rfl

/-- C6 (amended): on one `FirstTrail` instance, as long as the first open
position's entry price (the reference price) stays the same across the
calls, the returned trailing level never regresses: non-decreasing for a
long ledger and non-increasing for a short ledger (each returned level is
the instance's current 2-dp-rounded ratchet value). -/
theorem claim_C6_trail_ratchet_fixed_reference :
    (∀ (tt : ℚ) (st : Option ℚ) (p : ℚ) (cs : List TrailCall),
      (∀ c ∈ cs, ∃ t0 ts, c.ledger = t0 :: ts ∧ t0.entry_price = p ∧
        ∀ t ∈ c.ledger, t.entry_action = PriceAction.buy) →
      ∃ sF outs,
        run_trail_calls ⟨tt, st, none, none, none⟩ cs = .ok (sF, outs) ∧
        mono_some_le outs) ∧
    (∀ (tt : ℚ) (st : Option ℚ) (p : ℚ) (cs : List TrailCall),
      (∀ c ∈ cs, ∃ t0 ts, c.ledger = t0 :: ts ∧ t0.entry_price = p ∧
        ∀ t ∈ c.ledger, t.entry_action = PriceAction.sell) →
      ∃ sF outs,
        run_trail_calls ⟨tt, st, none, none, none⟩ cs = .ok (sF, outs) ∧
        mono_some_ge outs) := by
  constructor
  · intro tt st p cs hc
    cases cs with
    | nil =>
        refine ⟨_, [], rfl, ?_⟩
        intro i j hi
        simp at hi
    | cons c cs =>
        obtain ⟨t0, ts, hled, hp, hbuy⟩ := hc c (List.mem_cons_self _ _)
        obtain ⟨s2, out, hcal, hinv2, hout⟩ :=
          cal_trail_reset_long ⟨tt, st, none, none, none⟩ p c.high c.low
            t0 ts hp (by rw [← hled]; exact hbuy) (by simp)
        rw [← hled] at hcal
        obtain ⟨sF, outs2, hrun, hmono2, hlb2⟩ :=
          run_trail_long p cs s2 hinv2
            (fun c2 hc2 => hc c2 (List.mem_cons_of_mem _ hc2))
        refine ⟨sF, out :: outs2, ?_, ?_⟩
        · simp only [run_trail_calls]
          rw [hcal, except_bind_ok]
          simp only []
          rw [hrun, except_bind_ok]
        · intro i j hi hj hij x y hx hy
          match i, j with
          | 0, 0 =>
              simp only [List.get] at hx hy
              rw [hx] at hy
              exact le_of_eq (Option.some.injEq _ _ ▸ hy)
          | 0, (j' + 1) =>
              simp only [List.get] at hx hy
              rw [hout] at hx
              exact hlb2 x hx j' (Nat.lt_of_succ_lt_succ hj) y hy
          | (i' + 1), (j' + 1) =>
              simp only [List.get] at hx hy
              exact hmono2 i' j' (Nat.lt_of_succ_lt_succ hi)
                (Nat.lt_of_succ_lt_succ hj) (Nat.le_of_succ_le_succ hij)
                x y hx hy
  · intro tt st p cs hc
    cases cs with
    | nil =>
        refine ⟨_, [], rfl, ?_⟩
        intro i j hi
        simp at hi
    | cons c cs =>
        obtain ⟨t0, ts, hled, hp, hsell⟩ := hc c (List.mem_cons_self _ _)
        obtain ⟨s2, out, hcal, hinv2, hout⟩ :=
          cal_trail_reset_sell ⟨tt, st, none, none, none⟩ p c.high c.low
            t0 ts hp (by rw [← hled]; exact hsell) (by simp)
        rw [← hled] at hcal
        obtain ⟨sF, outs2, hrun, hmono2, hub2⟩ :=
          run_trail_sell p cs s2 hinv2
            (fun c2 hc2 => hc c2 (List.mem_cons_of_mem _ hc2))
        refine ⟨sF, out :: outs2, ?_, ?_⟩
        · simp only [run_trail_calls]
          rw [hcal, except_bind_ok]
          simp only []
          rw [hrun, except_bind_ok]
        · intro i j hi hj hij x y hx hy
          match i, j with
          | 0, 0 =>
              simp only [List.get] at hx hy
              rw [hx] at hy
              exact le_of_eq (Option.some.injEq _ _ ▸ hy).symm
          | 0, (j' + 1) =>
              simp only [List.get] at hx hy
              rw [hout] at hx
              exact hub2 x hx j' (Nat.lt_of_succ_lt_succ hj) y hy
          | (i' + 1), (j' + 1) =>
              simp only [List.get] at hx hy
              exact hmono2 i' j' (Nat.lt_of_succ_lt_succ hi)
                (Nat.lt_of_succ_lt_succ hj) (Nat.le_of_succ_le_succ hij)
                x y hx hy

/-- Witness for the amended C6: a two-call long run with a fixed
reference price of 100 succeeds and its emitted levels never decrease. -/
theorem claim_C6_trail_ratchet_fixed_reference_witness :
    ∃ sF outs,
      run_trail_calls ⟨1/5, none, none, none, none⟩
          [⟨[⟨"AAPL", 0, PriceAction.buy, 1, 100, none, none, 0, none⟩],
              150, 140⟩,
            ⟨[⟨"AAPL", 0, PriceAction.buy, 1, 100, none, none, 0, none⟩],
              160, 145⟩] = .ok (sF, outs) ∧
      mono_some_le outs :=
  claim_C6_trail_ratchet_fixed_reference.1 (1/5) none 100
    [⟨[⟨"AAPL", 0, PriceAction.buy, 1, 100, none, none, 0, none⟩],
        150, 140⟩,
      ⟨[⟨"AAPL", 0, PriceAction.buy, 1, 100, none, none, 0, none⟩],
        160, 145⟩]
    (by
      intro c hc
      simp only [List.mem_cons, List.mem_singleton] at hc
      rcases hc with hc | hc | hc
      · subst hc
        exact ⟨_, [], rfl, rfl, by intro t ht; simp at ht; subst ht; rfl⟩
      · subst hc
        exact ⟨_, [], rfl, rfl, by intro t ht; simp at ht; subst ht; rfl⟩
      · simp at hc)

theorem set_exit_fields_ok {t : StockTrade} {dt : DT} {lots price : ℚ}
    (ha : t.entry_action = PriceAction.buy ∨
      t.entry_action = PriceAction.sell)
    (hl0 : 0 ≤ lots) (hl1 : lots ≤ t.entry_lots)
    (hent : 0 ≤ t.entry_lots)
    (hdt : t.entry_datetime ≤ dt) (hp : 0 < price) :
    set_exit_fields t dt
      (if t.entry_action = PriceAction.buy then PriceAction.sell
        else PriceAction.buy) lots price =
      some (partly_closed t dt price lots) := by
  have hact : exit_action_ok t.entry_action
      (if t.entry_action = PriceAction.buy then PriceAction.sell
        else PriceAction.buy) = true := by
    rcases ha with h | h <;> simp [exit_action_ok, h]
  have hn1 : ¬ dt < t.entry_datetime := not_lt.mpr hdt
  have hn2 : ¬ ((!(exit_action_ok t.entry_action
      (if t.entry_action = PriceAction.buy then PriceAction.sell
        else PriceAction.buy))) = true) := by
    rw [hact]
    simp
  have hn3 : ¬ (lots > t.entry_lots ∨ lots < 0 ∨ t.entry_lots < 0) := by
    push_neg
    exact ⟨hl1, hl0, hent⟩
  have hn4 : ¬ price ≤ 0 := not_le.mpr hp
  unfold set_exit_fields
  rw [if_neg hn1, if_neg hn2, if_neg hn3, if_neg hn4]
  rfl

theorem update_pos_some_ok {t : StockTrade} {dt : DT} {price lots : ℚ}
    (ha : t.entry_action = PriceAction.buy ∨
      t.entry_action = PriceAction.sell)
    (hl0 : 0 < lots) (hl1 : lots ≤ t.entry_lots)
    (hdt : t.entry_datetime ≤ dt) (hp : 0 < price) :
    update_pos t dt price (some lots) = .ok (partly_closed t dt price lots) := by
  have hres : resolve_exit_lots t (some lots) = lots := by
    simp [resolve_exit_lots, ne_of_gt hl0]
  simp only [update_pos, hres]
  rw [if_neg (not_lt.mpr hl1), if_neg (not_lt.mpr (le_of_lt hl0)),
    set_exit_fields_ok ha (le_of_lt hl0) hl1
      (le_trans (le_of_lt hl0) hl1) hdt hp]
  rfl

theorem update_pos_none_ok {t : StockTrade} {dt : DT} {price : ℚ}
    (ha : t.entry_action = PriceAction.buy ∨
      t.entry_action = PriceAction.sell)
    (hx : 0 ≤ t.exit_lots) (ho : 1 ≤ open_lots t)
    (hdt : t.entry_datetime ≤ dt) (hp : 0 < price) :
    update_pos t dt price none =
      .ok (partly_closed t dt price t.entry_lots) := by
  have hent : 0 < t.entry_lots := by
    have := ho
    unfold open_lots at this
    linarith
  simp only [update_pos, resolve_exit_lots]
  rw [if_neg (lt_irrefl _), if_neg (not_lt.mpr (le_of_lt hent)),
    set_exit_fields_ok ha (le_of_lt hent) (le_refl _) (le_of_lt hent)
      hdt hp]
  rfl

theorem std_entry_action_wf {a : PriceAction} (l : List StockTrade)
    (hne : l ≠ []) (hw : ∀ t ∈ l, t.entry_action = a) :
    std_entry_action l = .ok (some a) := by
  cases l with
  | nil => exact absurd rfl hne
  | cons t ts =>
      have hall : ts.all (fun s => s.entry_action = t.entry_action) = true := by
        rw [List.all_eq_true]
        intro x hx
        have h1 := hw x (List.mem_cons_of_mem t hx)
        have h2 := hw t (List.mem_cons_self t ts)
        simp [h1, h2]
      simp only [std_entry_action]
      rw [hall]
      simp [hw t (List.mem_cons_self t ts)]

theorem take_all_aux_wf {a : PriceAction} {dt : DT} {price : ℚ}
    (ha : a = PriceAction.buy ∨ a = PriceAction.sell)
    (l : List StockTrade) (hp : 0 < price) :
    (∀ t ∈ l, wf_trade a dt t) →
    take_all_close_aux dt price l =
      .ok (some (l.map (fun t =>
        some (completed_record t dt price (open_lots t))))) := by
  induction l with
  | nil => intro _; rfl
  | cons t ts ih =>
      intro hw
      obtain ⟨hact, hx, ho, hdt, _, _⟩ := hw t (List.mem_cons_self t ts)
      have ha' : t.entry_action = PriceAction.buy ∨
          t.entry_action = PriceAction.sell := by
        rcases ha with h | h
        · exact Or.inl (hact.trans h)
        · exact Or.inr (hact.trans h)
      have hu := update_pos_none_ok ha' hx ho hdt hp
      have ho' : (1:ℚ) ≤ t.entry_lots - t.exit_lots := by
        simpa [open_lots] using ho
      have hne2 : ¬ ((partly_closed t dt price t.entry_lots).exit_lots
          = t.exit_lots) := by
        simp only [partly_closed]
        intro h
        rw [h] at ho'
        linarith
      simp only [take_all_close_aux]
      rw [hu]
      simp only [except_bind_ok]
      rw [if_neg hne2]
      have hrest := ih (fun x hx => hw x (List.mem_cons_of_mem t hx))
      by_cases hxe : t.exit_lots > 0
      · have hgen : gen_completed_trade (partly_closed t dt price t.entry_lots)
            ((partly_closed t dt price t.entry_lots).entry_lots -
              t.exit_lots) =
            .ok (completed_record t dt price (open_lots t)) := by
          simp [gen_completed_trade, partly_closed, completed_record,
            validate_completed_trades, open_lots, not_lt.mpr ho']
        rw [if_pos hxe, hgen]
        simp only [except_bind_ok, except_pure_bind]
        rw [hrest]
        rfl
      · have hx0 : t.exit_lots = 0 := le_antisymm (not_lt.mp hxe) hx
        have hval : validate_completed_trades
            (partly_closed t dt price t.entry_lots) = true := by
          simp [validate_completed_trades, partly_closed]
        have hueq : partly_closed t dt price t.entry_lots =
            completed_record t dt price (open_lots t) := by
          simp [partly_closed, completed_record, open_lots, hx0]
        rw [if_neg hxe, hval]
        simp only [if_true, except_pure_bind]
        rw [hrest]
        simp only [except_bind_ok]
        rw [hueq]
        rfl

theorem filterMap_id_map_some {α β : Type} (f : α → β) (l : List α) :
    List.filterMap id (l.map (fun x => some (f x))) = l.map f := by
  induction l with
  | nil => rfl
  | cons x xs ih => simp [ih]

theorem take_all_wf {a : PriceAction} {dt : DT} {price : ℚ}
    (ha : a = PriceAction.buy ∨ a = PriceAction.sell)
    (l : List StockTrade) (hne : l ≠ []) (hp : 0 < price)
    (hw : ∀ t ∈ l, wf_trade a dt t) :
    take_all_close_pos l dt price =
      .ok ([], l.map (fun t => completed_record t dt price (open_lots t))) := by
  have h0 : l.isEmpty = false := by
    cases l with
    | nil => exact absurd rfl hne
    | cons x xs => rfl
  simp only [take_all_close_pos, h0]
  rw [if_neg Bool.false_ne_true, take_all_aux_wf ha l hp hw]
  simp only [except_bind_ok]
  have hnone : (l.map (fun t =>
      some (completed_record t dt price (open_lots t)))).any
      Option.isNone = false := by
    simp
  rw [hnone]
  simp only [Bool.false_eq_true, if_false]
  rw [filterMap_id_map_some (fun t => completed_record t dt price (open_lots t)) l]

theorem exit_all_wf {a : PriceAction} {dt : DT} {price : ℚ} (s : GTState)
    (ha : a = PriceAction.buy ∨ a = PriceAction.sell)
    (hne : s.open_trades ≠ []) (hp : 0 < price)
    (hw : ∀ t ∈ s.open_trades, wf_trade a dt t) :
    ∃ s2 : GTState, exit_all s dt price =
        .ok (s2, s.open_trades.map (fun t =>
          completed_record t dt price (open_lots t))) ∧
      s2.open_trades = [] ∧ s2.stop_info_list = s.stop_info_list := by
  simp only [exit_all]
  rw [take_all_wf ha s.open_trades hne hp hw]
  simp only [except_bind_ok]
  rw [if_neg (by simp)]
  refine ⟨_, rfl, ?_, ?_⟩
  · by_cases h1 : s.trail_cached <;> by_cases h2 : s.open_eval_cached <;>
      simp [h1, h2]
  · by_cases h1 : s.trail_cached <;> by_cases h2 : s.open_eval_cached <;>
      simp [h1, h2]

theorem c3_pl_price :
    percent_loss_cal_exit_price (1/5) [c3_trade] = .ok 80 := by
  show (do
    let a ← std_entry_action [c3_trade]
    let ci := cur_invest [c3_trade]
    let net := get_net_pos [c3_trade]
    if net = 0 then Except.error "Decimal division by zero"
    else
      Except.ok (round2 (if a = some PriceAction.buy then
        ci * (1 - (1/5 : ℚ)) / net else ci * (1 + (1/5 : ℚ)) / net))) =
    Except.ok (80 : ℚ)
  rw [show std_entry_action [c3_trade] = Except.ok (some PriceAction.buy)
    from rfl, except_bind_ok]
  simp only [cur_invest, get_net_pos, round2, round_half_even, c3_trade]
  simp
  norm_num [Int.fract]

/-- C3 (counterexample): with the exit structure configured as `FixedExit`
and its `exit_levels` cache empty, `check_stop_loss` on a non-empty
one-trade long ledger with a configured percent-loss stop never consults
the trigger price: although the computed trigger is 80 and the bar gaps
down to an open of 70 (breaching it), the call returns the state and the
completed list unchanged — no position is closed and no stop-info row is
appended.  This refutes the claim's "closes every open position exactly
when the bar breaches the computed trigger price". -/
theorem claim_C3_fixed_exit_bypasses_stop :
    c3_state.open_trades ≠ [] ∧
    c3_state.stop_method ≠ StopMethodKind.noStop ∧
    cal_stop_price c3_state = .ok 80 ∧
    breach_open (some PriceAction.buy) c3_bar 80 ∧
    std_entry_action c3_state.open_trades = .ok (some PriceAction.buy) ∧
    check_stop_loss c3_state [] c3_bar = .ok (c3_state, []) := by
  refine ⟨by simp [c3_state], by simp [c3_state], c3_pl_price, ?_, rfl, rfl⟩
  exact Or.inl ⟨rfl, by norm_num [c3_bar]⟩

/-- C3 (amended: the claim holds only away from the `FixedExit` exit
structure, which diverts `check_stop_loss` to the per-position bracket
path).  For a non-empty well-formed same-side ledger, a configured stop
method, an exit structure other than `FixedExit`, a successfully computed
trigger price `sp` and positive bar prices, `check_stop_loss` empties the
ledger exactly when the bar breaches the trigger: at the bar's open when
the open gaps through the trigger, else at the close (monitoring close) or
at the trigger price itself (monitoring high/low) when an intraday
condition breaches, appending a stop-info row with triggered flag 1; when
nothing breaches the ledger is unchanged and the appended row has
triggered flag 0. -/
theorem claim_C3_stop_trigger_outcomes {a : PriceAction} (s : GTState)
    (bar : BarRecord) (completed : List StockTrade) (sp : ℚ)
    (ha : a = PriceAction.buy ∨ a = PriceAction.sell)
    (hw : ∀ t ∈ s.open_trades, wf_trade a bar.date t)
    (hne : s.open_trades ≠ [])
    (hsm : s.stop_method ≠ StopMethodKind.noStop)
    (hfx : s.exit_struct ≠ ExitMethod.fixedExit)
    (hsp : cal_stop_price s = .ok sp)
    (hop : 0 < bar.op) (hcl : 0 < bar.close) (hsp0 : 0 < sp) :
    ∃ s2 comp2, check_stop_loss s completed bar = .ok (s2, comp2) ∧
      (breach_open (some a) bar sp →
        s2.open_trades = [] ∧
        comp2 = completed ++ s.open_trades.map (fun t =>
          completed_record t bar.date bar.op (open_lots t)) ∧
        s2.stop_info_list = s.stop_info_list ++ [⟨bar.date, sp, 1⟩]) ∧
      (¬ breach_open (some a) bar sp →
        breach_intraday s.monitor_close (some a) bar sp →
        s2.open_trades = [] ∧
        comp2 = completed ++ s.open_trades.map (fun t =>
          completed_record t bar.date
            (if s.monitor_close then bar.close else sp) (open_lots t)) ∧
        s2.stop_info_list = s.stop_info_list ++ [⟨bar.date, sp, 1⟩]) ∧
      (¬ breach_open (some a) bar sp →
        ¬ breach_intraday s.monitor_close (some a) bar sp →
        s2.open_trades = s.open_trades ∧ comp2 = completed ∧
        s2.stop_info_list = s.stop_info_list ++ [⟨bar.date, sp, 0⟩]) := by
  have hstd : std_entry_action s.open_trades = .ok (some a) :=
    std_entry_action_wf s.open_trades hne (fun t ht => (hw t ht).1)
  have hIsE : s.open_trades.isEmpty = false := by
    cases h : s.open_trades with
    | nil => exact absurd h hne
    | cons x xs => rfl
  have hbeq : (s.stop_method == StopMethodKind.noStop) = false := by
    cases h : s.stop_method <;> simp_all
  simp only [check_stop_loss, hIsE, hbeq, Bool.or_self]
  rw [if_neg Bool.false_ne_true, if_neg hfx, hsp]
  simp only [except_bind_ok, update_trigger_status, hstd]
  by_cases hb : breach_open (some a) bar sp
  · rw [if_pos hb]
    obtain ⟨s4, he, ho4, hs4⟩ := exit_all_wf s ha hne hop hw
    rw [he]
    simp only [except_bind_ok]
    refine ⟨_, _, rfl, ?_, ?_, ?_⟩
    · intro _
      exact ⟨ho4, rfl, by simp [hs4]⟩
    · intro hnb _
      exact absurd hb hnb
    · intro hnb _
      exact absurd hb hnb
  · rw [if_neg hb]
    by_cases hbi : breach_intraday s.monitor_close (some a) bar sp
    · rw [if_pos hbi]
      have hep : 0 < (if s.monitor_close = true then bar.close else sp) := by
        split
        · exact hcl
        · exact hsp0
      obtain ⟨s4, he, ho4, hs4⟩ := exit_all_wf s ha hne hep hw
      rw [he]
      simp only [except_bind_ok]
      refine ⟨_, _, rfl, ?_, ?_, ?_⟩
      · intro h
        exact absurd h hb
      · intro _ _
        exact ⟨ho4, rfl, by simp [hs4]⟩
      · intro _ h
        exact absurd hbi h
    · rw [if_neg hbi]
      refine ⟨_, _, rfl, ?_, ?_, ?_⟩
      · intro h
        exact absurd h hb
      · intro _ h
        exact absurd h hbi
      · intro _ _
        exact ⟨rfl, rfl, rfl⟩

theorem claim_C3_stop_trigger_outcomes_witness :
    ∃ s2 comp2, check_stop_loss c3_state_fifo [] c3_bar = .ok (s2, comp2) ∧
      (breach_open (some PriceAction.buy) c3_bar 80 →
        s2.open_trades = [] ∧
        comp2 = [] ++ c3_state_fifo.open_trades.map (fun t =>
          completed_record t c3_bar.date c3_bar.op (open_lots t)) ∧
        s2.stop_info_list =
          c3_state_fifo.stop_info_list ++ [⟨c3_bar.date, 80, 1⟩]) ∧
      (¬ breach_open (some PriceAction.buy) c3_bar 80 →
        breach_intraday c3_state_fifo.monitor_close (some PriceAction.buy)
          c3_bar 80 →
        s2.open_trades = [] ∧
        comp2 = [] ++ c3_state_fifo.open_trades.map (fun t =>
          completed_record t c3_bar.date
            (if c3_state_fifo.monitor_close then c3_bar.close else 80)
            (open_lots t)) ∧
        s2.stop_info_list =
          c3_state_fifo.stop_info_list ++ [⟨c3_bar.date, 80, 1⟩]) ∧
      (¬ breach_open (some PriceAction.buy) c3_bar 80 →
        ¬ breach_intraday c3_state_fifo.monitor_close (some PriceAction.buy)
          c3_bar 80 →
        s2.open_trades = c3_state_fifo.open_trades ∧ comp2 = [] ∧
        s2.stop_info_list =
          c3_state_fifo.stop_info_list ++ [⟨c3_bar.date, 80, 0⟩]) :=
  claim_C3_stop_trigger_outcomes (a := PriceAction.buy) c3_state_fifo c3_bar
    [] 80 (Or.inl rfl)
    (by
      intro t ht
      have h1 : t = c3_trade := by
        simpa [c3_state_fifo, c3_state] using ht
      rw [h1]
      refine ⟨rfl, by norm_num [c3_trade], ?_, by norm_num [c3_trade, c3_bar],
        ⟨1, by norm_num [c3_trade]⟩, ⟨0, by norm_num [c3_trade]⟩⟩
      norm_num [c3_trade, open_lots])
    (by simp [c3_state_fifo, c3_state])
    (by simp [c3_state_fifo, c3_state])
    (by simp [c3_state_fifo, c3_state])
    c3_pl_price
    (by norm_num [c3_bar]) (by norm_num [c3_bar]) (by norm_num)

theorem drop_lots_front_nonpos {dt : DT} {price req : ℚ}
    (h : req ≤ 0) (l : List StockTrade) :
    drop_lots_front dt price req l = l := by
  cases l with
  | nil => rfl
  | cons t ts =>
      simp only [drop_lots_front]
      rw [if_pos h]

theorem take_lots_front_nonpos {dt : DT} {price req : ℚ}
    (h : req ≤ 0) (l : List StockTrade) :
    take_lots_front dt price req l = [] := by
  cases l with
  | nil => rfl
  | cons t ts =>
      simp only [take_lots_front]
      rw [if_pos h]

theorem update_completed_trades_wf {t : StockTrade} {dt : DT}
    {price lots : ℚ}
    (ha : t.entry_action = PriceAction.buy ∨
      t.entry_action = PriceAction.sell)
    (hl1 : 1 ≤ lots) (hl2 : lots ≤ t.entry_lots)
    (hdt : t.entry_datetime ≤ dt) (hp : 0 < price) :
    update_completed_trades t dt price lots =
      .ok (completed_record t dt price lots) := by
  have h0 : (0:ℚ) < lots := lt_of_lt_of_le one_pos hl1
  simp only [update_completed_trades]
  rw [update_pos_some_ok ha h0 hl2 hdt hp]
  simp only [except_bind_ok]
  simp [gen_completed_trade, partly_closed, completed_record,
    validate_completed_trades, not_lt.mpr hl1]

theorem int_cast_one_le {q : ℚ} (h0 : 0 < q) (hint : ∃ k : ℤ, q = (k:ℚ)) :
    (1:ℚ) ≤ q := by
  obtain ⟨k, rfl⟩ := hint
  have hk : 0 < k := by exact_mod_cast h0
  exact_mod_cast hk

theorem update_half_aux_wf {a : PriceAction} {dt : DT} {price : ℚ}
    (ha : a = PriceAction.buy ∨ a = PriceAction.sell) (hp : 0 < price)
    (l : List StockTrade) :
    ∀ hpos : ℚ, (∀ t ∈ l, wf_trade a dt t) → (∃ k : ℤ, hpos = (k:ℚ)) →
    update_half_aux dt price hpos l =
      .ok (drop_lots_front dt price hpos l,
        take_lots_front dt price hpos l) := by
  induction l with
  | nil => intro hpos _ _; rfl
  | cons t ts ih =>
      intro hpos hw hint
      obtain ⟨hact, hx, ho, hdt, ⟨me, hme⟩, ⟨en, hen⟩⟩ :=
        hw t (List.mem_cons_self t ts)
      have hwts : ∀ x ∈ ts, wf_trade a dt x :=
        fun x hx2 => hw x (List.mem_cons_of_mem t hx2)
      have ha' : t.entry_action = PriceAction.buy ∨
          t.entry_action = PriceAction.sell := by
        rcases ha with h | h
        · exact Or.inl (hact.trans h)
        · exact Or.inr (hact.trans h)
      have holint : ∃ k : ℤ, open_lots t = (k:ℚ) :=
        ⟨me - en, by push_cast [open_lots, hme, hen]; ring⟩
      by_cases h0 : hpos ≤ 0
      · have hmin : min (open_lots t) hpos = hpos :=
          min_eq_right (le_trans h0 (le_trans zero_le_one ho))
        simp only [update_half_aux, hmin]
        rw [if_pos h0, sub_self, ih 0 hwts ⟨0, by norm_num⟩,
          drop_lots_front_nonpos (le_refl 0) ts,
          take_lots_front_nonpos (le_refl 0) ts]
        simp only [except_bind_ok]
        simp only [drop_lots_front, take_lots_front]
        rw [if_pos h0, if_pos h0]
      · have h0' : 0 < hpos := not_le.mp h0
        have h1 : (1:ℚ) ≤ hpos := int_cast_one_le h0' hint
        by_cases hol : open_lots t ≤ hpos
        · have hmin : min (open_lots t) hpos = open_lots t := min_eq_left hol
          have hrec : ∃ k : ℤ, hpos - open_lots t = (k:ℚ) := by
            obtain ⟨k, hk⟩ := hint
            obtain ⟨j, hj⟩ := holint
            exact ⟨k - j, by push_cast [hk, hj]; ring⟩
          have hcr := update_completed_trades_wf
            ha' ho (by simp only [open_lots]; linarith) hdt hp
          simp only [update_half_aux, hmin]
          rw [if_neg h0, if_pos hol, hcr]
          simp only [except_bind_ok]
          rw [ih (hpos - open_lots t) hwts hrec]
          simp only [except_bind_ok]
          simp only [drop_lots_front, take_lots_front]
          rw [if_neg h0, if_neg h0, if_pos hol, if_pos hol]
        · have hol' : hpos < open_lots t := not_le.mp hol
          have hmin : min (open_lots t) hpos = hpos :=
            min_eq_right (le_of_lt hol')
          have hle : hpos ≤ t.entry_lots := by
            simp only [open_lots] at hol'
            linarith
          have hcr := update_completed_trades_wf ha' h1 hle hdt hp
          have hup : update_pos t dt price (some (hpos + t.exit_lots)) =
              .ok (partly_closed t dt price (hpos + t.exit_lots)) :=
            update_pos_some_ok ha'
              (by linarith) (by simp only [open_lots] at hol'; linarith)
              hdt hp
          simp only [update_half_aux, hmin]
          rw [if_neg h0, if_neg hol, hcr]
          simp only [except_bind_ok]
          rw [hup]
          simp only [except_bind_ok]
          rw [sub_self, ih 0 hwts ⟨0, by norm_num⟩,
            drop_lots_front_nonpos (le_refl 0) ts,
            take_lots_front_nonpos (le_refl 0) ts]
          simp only [except_bind_ok]
          simp only [drop_lots_front, take_lots_front]
          rw [if_neg h0, if_neg h0, if_neg hol, if_neg hol,
            add_comm hpos t.exit_lots]

theorem half_fifo_wf {a : PriceAction} {dt : DT} {price : ℚ}
    (ha : a = PriceAction.buy ∨ a = PriceAction.sell)
    (l : List StockTrade) (hne : l ≠ []) (hp : 0 < price)
    (hw : ∀ t ∈ l, wf_trade a dt t) :
    half_fifo_close_pos l dt price =
      .ok (drop_lots_front dt price ((⌈|get_net_pos l| / 2⌉ : ℤ) : ℚ) l,
        take_lots_front dt price ((⌈|get_net_pos l| / 2⌉ : ℤ) : ℚ) l) := by
  have h0 : l.isEmpty = false := by
    cases l with
    | nil => exact absurd rfl hne
    | cons x xs => rfl
  simp only [half_fifo_close_pos, h0, update_half_status]
  rw [if_neg Bool.false_ne_true]
  exact update_half_aux_wf ha hp l _ hw ⟨_, rfl⟩

theorem half_lifo_aux_nonpos {dt : DT} {price : ℚ}
    (origL : List StockTrade) {hpos : ℚ} (h0 : ¬ hpos > 0) :
    ∀ (rl no comp : List StockTrade),
    half_lifo_aux dt price origL rl hpos no comp =
      .ok (rl.reverse ++ no, comp) := by
  intro rl
  induction rl with
  | nil => intro no comp; rfl
  | cons t ts ih =>
      intro no comp
      simp only [half_lifo_aux]
      rw [if_neg h0, ih (t :: no) comp]
      simp [List.reverse_cons, List.append_assoc]

theorem half_lifo_aux_wf {a : PriceAction} {dt : DT} {price : ℚ}
    (ha : a = PriceAction.buy ∨ a = PriceAction.sell) (hp : 0 < price)
    (origL : List StockTrade) (rl : List StockTrade) :
    ∀ (hpos : ℚ) (comp : List StockTrade),
    (∀ t ∈ rl, wf_trade a dt t) → (∃ k : ℤ, hpos = (k:ℚ)) →
    half_lifo_aux dt price origL rl hpos [] comp =
      .ok ((drop_lots_front dt price hpos rl).reverse,
        comp ++ take_lots_front dt price hpos rl) := by
  induction rl with
  | nil => intro hpos comp _ _; simp [half_lifo_aux, drop_lots_front,
      take_lots_front]
  | cons t ts ih =>
      intro hpos comp hw hint
      obtain ⟨hact, hx, ho, hdt, ⟨me, hme⟩, ⟨en, hen⟩⟩ :=
        hw t (List.mem_cons_self t ts)
      have hwts : ∀ x ∈ ts, wf_trade a dt x :=
        fun x hx2 => hw x (List.mem_cons_of_mem t hx2)
      have ha' : t.entry_action = PriceAction.buy ∨
          t.entry_action = PriceAction.sell := by
        rcases ha with h | h
        · exact Or.inl (hact.trans h)
        · exact Or.inr (hact.trans h)
      have ho' : (1:ℚ) ≤ t.entry_lots - t.exit_lots := by
        simpa [open_lots] using ho
      by_cases h0 : hpos > 0
      · have h1 : (1:ℚ) ≤ hpos := int_cast_one_le h0 hint
        by_cases hol : t.entry_lots - t.exit_lots ≤ hpos
        · have hmin : min hpos (t.entry_lots - t.exit_lots) =
              t.entry_lots - t.exit_lots := min_eq_right hol
          have hsimp : t.exit_lots + (t.entry_lots - t.exit_lots) =
              t.entry_lots := by ring
          have hup : update_pos t dt price (some t.entry_lots) =
              .ok (partly_closed t dt price t.entry_lots) :=
            update_pos_some_ok ha' (by linarith) (le_refl _) hdt hp
          have hne2 : ¬ ((partly_closed t dt price t.entry_lots).exit_lots
              = t.exit_lots) := by
            simp only [partly_closed]
            intro h
            rw [h] at ho'
            linarith
          have hval : validate_completed_trades
              (partly_closed t dt price t.entry_lots) = true := by
            simp [validate_completed_trades, partly_closed]
          have hgen : gen_completed_trade
              (partly_closed t dt price t.entry_lots)
              (t.entry_lots - t.exit_lots) =
              .ok (completed_record t dt price
                (t.entry_lots - t.exit_lots)) := by
            simp [gen_completed_trade, partly_closed, completed_record,
              validate_completed_trades, not_lt.mpr ho']
          have hrec : ∃ k : ℤ, hpos - (t.entry_lots - t.exit_lots) =
              (k:ℚ) := by
            obtain ⟨k, hk⟩ := hint
            exact ⟨k - (me - en), by push_cast [hk, hme, hen]; ring⟩
          simp only [half_lifo_aux, hmin, hsimp]
          rw [if_pos h0, hup]
          simp only [except_bind_ok]
          rw [if_neg hne2, hval]
          simp only [if_true]
          rw [hgen]
          simp only [except_bind_ok]
          rw [ih (hpos - (t.entry_lots - t.exit_lots)) (comp ++
            [completed_record t dt price (t.entry_lots - t.exit_lots)])
            hwts hrec]
          simp only [drop_lots_front, take_lots_front, open_lots]
          rw [if_neg (not_le.mpr h0), if_neg (not_le.mpr h0),
            if_pos hol, if_pos hol]
          simp [List.append_assoc]
        · have hol' : hpos < t.entry_lots - t.exit_lots := not_le.mp hol
          have hmin : min hpos (t.entry_lots - t.exit_lots) = hpos :=
            min_eq_left (le_of_lt hol')
          have hup : update_pos t dt price (some (t.exit_lots + hpos)) =
              .ok (partly_closed t dt price (t.exit_lots + hpos)) :=
            update_pos_some_ok ha' (by linarith) (by linarith) hdt hp
          have hne2 : ¬ ((partly_closed t dt price
              (t.exit_lots + hpos)).exit_lots = t.exit_lots) := by
            simp only [partly_closed]
            intro h
            have : hpos = 0 := by linarith
            rw [this] at h0
            exact absurd h0 (lt_irrefl 0)
          have hval : validate_completed_trades
              (partly_closed t dt price (t.exit_lots + hpos)) = false := by
            simp only [validate_completed_trades, partly_closed]
            simp [beq_eq_false_iff_ne]
            intro h
            linarith
          have hgen : gen_completed_trade
              (partly_closed t dt price (t.exit_lots + hpos)) hpos =
              .ok (completed_record t dt price hpos) := by
            simp [gen_completed_trade, partly_closed, completed_record,
              validate_completed_trades, not_lt.mpr h1]
          simp only [half_lifo_aux, hmin]
          rw [if_pos h0, hup]
          simp only [except_bind_ok]
          rw [if_neg hne2, hval]
          simp only [Bool.false_eq_true, if_false]
          rw [hgen]
          simp only [except_bind_ok]
          rw [sub_self, half_lifo_aux_nonpos origL (by norm_num) ts
            ([] ++ [partly_closed t dt price (t.exit_lots + hpos)])
            (comp ++ [completed_record t dt price hpos])]
          simp only [drop_lots_front, take_lots_front, open_lots]
          rw [if_neg (not_le.mpr h0), if_neg (not_le.mpr h0),
            if_neg hol, if_neg hol]
          simp
      · simp only [half_lifo_aux]
        rw [if_neg h0, half_lifo_aux_nonpos origL h0 ts (t :: []) comp,
          drop_lots_front_nonpos (not_lt.mp h0) (t :: ts),
          take_lots_front_nonpos (not_lt.mp h0) (t :: ts)]
        simp

theorem half_lifo_wf {a : PriceAction} {dt : DT} {price : ℚ}
    (ha : a = PriceAction.buy ∨ a = PriceAction.sell)
    (l : List StockTrade) (hne : l ≠ []) (hp : 0 < price)
    (hw : ∀ t ∈ l, wf_trade a dt t) :
    half_lifo_close_pos l dt price =
      .ok ((drop_lots_front dt price ((⌈|get_net_pos l| / 2⌉ : ℤ) : ℚ)
          l.reverse).reverse,
        take_lots_front dt price ((⌈|get_net_pos l| / 2⌉ : ℤ) : ℚ)
          l.reverse) := by
  have h0 : l.isEmpty = false := by
    cases l with
    | nil => exact absurd rfl hne
    | cons x xs => rfl
  simp only [half_lifo_close_pos, h0]
  rw [if_neg Bool.false_ne_true,
    half_lifo_aux_wf ha hp l l.reverse _ []
      (fun t ht => hw t (List.mem_reverse.mp ht)) ⟨_, rfl⟩]
  simp

theorem total_open_lots_cons (t : StockTrade) (ts : List StockTrade) :
    total_open_lots (t :: ts) = open_lots t + total_open_lots ts := by
  simp [total_open_lots]

theorem total_open_lots_reverse (l : List StockTrade) :
    total_open_lots l.reverse = total_open_lots l := by
  simp [total_open_lots, List.sum_reverse]

theorem total_open_lots_nonneg {a : PriceAction} {dt : DT}
    (l : List StockTrade) (hw : ∀ t ∈ l, wf_trade a dt t) :
    0 ≤ total_open_lots l := by
  induction l with
  | nil => simp [total_open_lots]
  | cons t ts ih =>
      have h1 := (hw t (List.mem_cons_self t ts)).2.2.1
      have h2 := ih (fun x hx => hw x (List.mem_cons_of_mem t hx))
      rw [total_open_lots_cons]
      linarith

theorem total_open_lots_pos {a : PriceAction} {dt : DT}
    (l : List StockTrade) (hne : l ≠ []) (hw : ∀ t ∈ l, wf_trade a dt t) :
    1 ≤ total_open_lots l := by
  cases l with
  | nil => exact absurd rfl hne
  | cons t ts =>
      have h1 := (hw t (List.mem_cons_self t ts)).2.2.1
      have h2 := total_open_lots_nonneg ts
        (fun x hx => hw x (List.mem_cons_of_mem t hx))
      rw [total_open_lots_cons]
      linarith

theorem total_open_lots_int {a : PriceAction} {dt : DT}
    (l : List StockTrade) (hw : ∀ t ∈ l, wf_trade a dt t) :
    ∃ n : ℤ, total_open_lots l = (n:ℚ) := by
  induction l with
  | nil => exact ⟨0, by simp [total_open_lots]⟩
  | cons t ts ih =>
      obtain ⟨_, _, _, _, ⟨me, hme⟩, ⟨en, hen⟩⟩ :=
        hw t (List.mem_cons_self t ts)
      obtain ⟨n, hn⟩ := ih (fun x hx => hw x (List.mem_cons_of_mem t hx))
      exact ⟨me - en + n, by
        rw [total_open_lots_cons]
        push_cast [open_lots, hme, hen, hn]
        ring⟩

theorem get_net_pos_abs_wf {a : PriceAction} {dt : DT}
    (l : List StockTrade) (ha : a = PriceAction.buy ∨ a = PriceAction.sell)
    (hw : ∀ t ∈ l, wf_trade a dt t) :
    |get_net_pos l| = total_open_lots l := by
  rcases ha with h | h
  · have hb : get_net_pos l = total_open_lots l := by
      subst h
      induction l with
      | nil => rfl
      | cons t ts ih =>
          have h1 := (hw t (List.mem_cons_self t ts)).1
          rw [total_open_lots_cons]
          simp only [get_net_pos, List.map_cons, List.sum_cons]
          rw [h1, if_pos rfl]
          have := ih (fun x hx => hw x (List.mem_cons_of_mem t hx))
          simp only [get_net_pos] at this
          rw [this, open_lots]
    rw [hb]
    exact abs_of_nonneg (total_open_lots_nonneg l hw)
  · have hs : get_net_pos l = -total_open_lots l := by
      subst h
      induction l with
      | nil => simp [get_net_pos, total_open_lots]
      | cons t ts ih =>
          have h1 := (hw t (List.mem_cons_self t ts)).1
          rw [total_open_lots_cons]
          simp only [get_net_pos, List.map_cons, List.sum_cons]
          rw [h1, if_neg (by simp)]
          have := ih (fun x hx => hw x (List.mem_cons_of_mem t hx))
          simp only [get_net_pos] at this
          rw [this, open_lots]
          ring
    rw [hs, abs_neg]
    exact abs_of_nonneg (total_open_lots_nonneg l hw)

theorem total_drop {dt : DT} {price : ℚ} (l : List StockTrade) :
    ∀ req : ℚ, 0 ≤ req → req ≤ total_open_lots l →
    total_open_lots (drop_lots_front dt price req l) =
      total_open_lots l - req := by
  induction l with
  | nil =>
      intro req h0 h1
      simp only [total_open_lots, List.map_nil, List.sum_nil] at h1 ⊢
      simp only [drop_lots_front, total_open_lots, List.map_nil,
        List.sum_nil]
      linarith
  | cons t ts ih =>
      intro req h0 h1
      by_cases hz : req ≤ 0
      · have hr0 : req = 0 := le_antisymm hz h0
        rw [drop_lots_front_nonpos hz (t :: ts), hr0, sub_zero]
      · rw [total_open_lots_cons] at h1
        simp only [drop_lots_front]
        rw [if_neg hz]
        by_cases hol : open_lots t ≤ req
        · rw [if_pos hol, ih (req - open_lots t) (by linarith) (by linarith),
            total_open_lots_cons]
          ring
        · rw [if_neg hol, total_open_lots_cons, total_open_lots_cons]
          simp only [open_lots, partly_closed]
          ring

theorem sum_take {dt : DT} {price : ℚ} (l : List StockTrade) :
    ∀ req : ℚ, 0 ≤ req → req ≤ total_open_lots l →
    sum_entry_lots (take_lots_front dt price req l) = req := by
  induction l with
  | nil =>
      intro req h0 h1
      simp only [total_open_lots, List.map_nil, List.sum_nil] at h1
      simp only [take_lots_front, sum_entry_lots, List.map_nil,
        List.sum_nil]
      linarith
  | cons t ts ih =>
      intro req h0 h1
      by_cases hz : req ≤ 0
      · have hr0 : req = 0 := le_antisymm hz h0
        rw [take_lots_front_nonpos hz (t :: ts), hr0]
        rfl
      · rw [total_open_lots_cons] at h1
        simp only [take_lots_front]
        rw [if_neg hz]
        by_cases hol : open_lots t ≤ req
        · rw [if_pos hol]
          simp only [sum_entry_lots, List.map_cons, List.sum_cons,
            completed_record]
          have := ih (req - open_lots t) (by linarith) (by linarith)
          simp only [sum_entry_lots] at this
          rw [this]
          ring
        · rw [if_neg hol]
          simp [sum_entry_lots, completed_record]

theorem floor_half_int (n : ℤ) : ⌊(n:ℚ)/2⌋ = n / 2 := by
  have h1 : ((n / 2 : ℤ) : ℚ) ≤ (n:ℚ)/2 := by
    rw [le_div_iff₀ (by norm_num : (0:ℚ) < 2)]
    have h : (n / 2) * 2 ≤ n := by omega
    exact_mod_cast h
  have h2 : (n:ℚ)/2 < (n / 2 : ℤ) + 1 := by
    rw [div_lt_iff₀ (by norm_num : (0:ℚ) < 2)]
    have h : n < ((n / 2) + 1) * 2 := by omega
    calc (n:ℚ) < (((n / 2) + 1 : ℤ) : ℚ) * 2 := by exact_mod_cast h
    _ = ((n / 2 : ℤ) + 1) * 2 := by push_cast; ring
  exact Int.floor_eq_iff.mpr ⟨h1, h2⟩

theorem ceil_half_int (n : ℤ) : ⌈(n:ℚ)/2⌉ = (n + 1) / 2 := by
  have h1 : (((n + 1) / 2 : ℤ) : ℚ) - 1 < (n:ℚ)/2 := by
    rw [sub_lt_iff_lt_add, div_add' _ _ _ (by norm_num : (2:ℚ) ≠ 0),
      lt_div_iff₀ (by norm_num : (0:ℚ) < 2)]
    have h : ((n + 1) / 2) * 2 < n + 1 * 2 := by omega
    exact_mod_cast h
  have h2 : (n:ℚ)/2 ≤ (((n + 1) / 2 : ℤ) : ℚ) := by
    rw [div_le_iff₀ (by norm_num : (0:ℚ) < 2)]
    have h : n ≤ ((n + 1) / 2) * 2 := by omega
    exact_mod_cast h
  exact Int.ceil_eq_iff.mpr ⟨h1, h2⟩

/-- C2: on a non-empty well-formed same-side ledger, one application of
`HalfFIFOExit.close_pos` closes `required = ceil(|net|/2)` open lots
strictly from the front of the ledger (`HalfLIFOExit.close_pos` from the
back), fully closing leading (resp. trailing) trades while they fit,
partially reducing at most one trade and leaving every trade beyond the
required amount unchanged — the walk is exactly `drop_lots_front` /
`take_lots_front` — and the returned ledger holds `floor(L/2)` open lots
while the emitted records total `ceil(L/2)` lots, where `L` is the total
open lots. -/
theorem claim_C2_half_exit_behaviour {a : PriceAction} {dt : DT}
    {price req : ℚ} (l : List StockTrade)
    (ha : a = PriceAction.buy ∨ a = PriceAction.sell)
    (hne : l ≠ []) (hp : 0 < price)
    (hw : ∀ t ∈ l, wf_trade a dt t)
    (hreq : req = ((⌈|get_net_pos l| / 2⌉ : ℤ) : ℚ)) :
    half_fifo_close_pos l dt price =
      .ok (drop_lots_front dt price req l, take_lots_front dt price req l) ∧
    half_lifo_close_pos l dt price =
      .ok ((drop_lots_front dt price req l.reverse).reverse,
        take_lots_front dt price req l.reverse) ∧
    total_open_lots (drop_lots_front dt price req l) =
      ((⌊total_open_lots l / 2⌋ : ℤ) : ℚ) ∧
    sum_entry_lots (take_lots_front dt price req l) =
      ((⌈total_open_lots l / 2⌉ : ℤ) : ℚ) ∧
    total_open_lots ((drop_lots_front dt price req l.reverse).reverse) =
      ((⌊total_open_lots l / 2⌋ : ℤ) : ℚ) ∧
    sum_entry_lots (take_lots_front dt price req l.reverse) =
      ((⌈total_open_lots l / 2⌉ : ℤ) : ℚ) := by
  obtain ⟨n, hn⟩ := total_open_lots_int l hw
  have habs : |get_net_pos l| = total_open_lots l :=
    get_net_pos_abs_wf l ha hw
  have hn1 : 1 ≤ n := by
    have h := total_open_lots_pos l hne hw
    rw [hn] at h
    exact_mod_cast h
  have hreq' : req = (((n + 1) / 2 : ℤ) : ℚ) := by
    rw [hreq, habs, hn, ceil_half_int]
  have h0 : 0 ≤ req := by
    rw [hreq']
    have h : 0 ≤ (n + 1) / 2 := by omega
    exact_mod_cast h
  have hle : req ≤ total_open_lots l := by
    rw [hreq', hn]
    have h : (n + 1) / 2 ≤ n := by omega
    exact_mod_cast h
  have hrev : total_open_lots l.reverse = total_open_lots l :=
    total_open_lots_reverse l
  have hfloorg : total_open_lots l - req =
      ((⌊total_open_lots l / 2⌋ : ℤ) : ℚ) := by
    rw [hn, floor_half_int, hreq']
    have h : (n : ℚ) - (((n + 1) / 2 : ℤ) : ℚ) =
        ((n - (n + 1) / 2 : ℤ) : ℚ) := by
      push_cast
      ring
    rw [h]
    have h2 : n - (n + 1) / 2 = n / 2 := by omega
    rw [h2]
  have hceilg : req = ((⌈total_open_lots l / 2⌉ : ℤ) : ℚ) := by
    rw [hreq, habs]
  refine ⟨?_, ?_, ?_, ?_, ?_, ?_⟩
  · rw [hreq]
    exact half_fifo_wf ha l hne hp hw
  · rw [hreq]
    exact half_lifo_wf ha l hne hp hw
  · rw [total_drop l req h0 hle]
    exact hfloorg
  · rw [sum_take l req h0 hle]
    exact hceilg
  · rw [total_open_lots_reverse,
      total_drop l.reverse req h0 (by rw [hrev]; exact hle), hrev]
    exact hfloorg
  · rw [sum_take l.reverse req h0 (by rw [hrev]; exact hle)]
    exact hceilg

theorem claim_C2_half_exit_behaviour_witness :
    half_fifo_close_pos c2_l 1 10 =
      .ok (drop_lots_front 1 10 2 c2_l, take_lots_front 1 10 2 c2_l) ∧
    half_lifo_close_pos c2_l 1 10 =
      .ok ((drop_lots_front 1 10 2 c2_l.reverse).reverse,
        take_lots_front 1 10 2 c2_l.reverse) ∧
    total_open_lots (drop_lots_front 1 10 2 c2_l) =
      ((⌊total_open_lots c2_l / 2⌋ : ℤ) : ℚ) ∧
    sum_entry_lots (take_lots_front 1 10 2 c2_l) =
      ((⌈total_open_lots c2_l / 2⌉ : ℤ) : ℚ) ∧
    total_open_lots ((drop_lots_front 1 10 2 c2_l.reverse).reverse) =
      ((⌊total_open_lots c2_l / 2⌋ : ℤ) : ℚ) ∧
    sum_entry_lots (take_lots_front 1 10 2 c2_l.reverse) =
      ((⌈total_open_lots c2_l / 2⌉ : ℤ) : ℚ) :=
  claim_C2_half_exit_behaviour (a := PriceAction.buy) c2_l (Or.inl rfl)
    (by simp [c2_l]) (by norm_num)
    (by
      intro t ht
      simp [c2_l] at ht
      rcases ht with h | h
      · subst h
        exact ⟨rfl, by norm_num, by norm_num [open_lots], by norm_num,
          ⟨2, by norm_num⟩, ⟨0, by norm_num⟩⟩
      · subst h
        exact ⟨rfl, by norm_num, by norm_num [open_lots], by norm_num,
          ⟨1, by norm_num⟩, ⟨0, by norm_num⟩⟩)
    (by
      have hnet : |get_net_pos c2_l| = ((3:ℤ):ℚ) := by
        norm_num [get_net_pos, c2_l]
      rw [hnet, ceil_half_int]
      norm_num)
